import Mathlib

/-
Verification of the autocut video-clipping pipeline.

This file gives a shallow embedding of the core of the repository:
the tracklist parser (worker/logic.py, parse_timestamps_from_description
and timestamp_to_seconds), the cached pipeline stages (download_video,
extract_audio, get_transcription_segments, get_or_create_metadata_from_ai),
the clip renderer (create_video_clips), the orchestrator
(run_processing_pipeline), the worker task (worker/tasks.py,
process_video_task) and the direct clipping mode of main.py.

External capabilities (the network, moviepy, whisper, the generative AI)
are modelled by an environment record of oracles; the filesystem is an
association list from paths to file contents; every call to an external
capability is recorded in an effect trace.  Python regular expressions
are modelled character by character with the engine's backtracking order
(lazy and greedy quantifiers, MULTILINE anchors), restricted to ASCII
input.  Python floats are modelled as rationals.
-/

abbrev Chars := List Char

/-- Whitespace characters matched by the regex class backslash-s (ASCII). -/
def isPySpace (c : Char) : Bool :=
  c = ' ' || c = '\t' || c = '\n' || c = '\r' || c = '\x0b' || c = '\x0c'

/-- Greedily drop whitespace (one deterministic reading of a star of spaces,
    valid wherever the following regex atom cannot match whitespace). -/
def skipWs (s : Chars) : Chars := s.dropWhile isPySpace

/-- Read exactly two digits (the longest reading of a one-or-two-digit field). -/
def dd2 (s : Chars) : Option (Chars × Chars) :=
  match s with
  | a :: b :: r => if a.isDigit && b.isDigit then some ([a, b], r) else none
  | _ => none

/-- Read exactly one digit (the shorter reading of a one-or-two-digit field). -/
def dd1 (s : Chars) : Option (Chars × Chars) :=
  match s with
  | a :: r => if a.isDigit then some ([a], r) else none
  | _ => none

/-- Complete one reading of the core timestamp `MM:SS` part: a given reading of
    the minute field, a colon, then exactly two digits. -/
def tryCore (p : Option (Chars × Chars)) : Option (Chars × Chars) :=
  match p with
  | some (d, c0 :: a :: b :: r) =>
    if c0 = ':' && a.isDigit && b.isDigit then some (d ++ ':' :: [a, b], r) else none
  | _ => none

/-- The readings of the `MM:SS` core at this position, in engine order
    (two-digit minute field first, then one digit). -/
def coreCandidates (s : Chars) : List (Chars × Chars) :=
  (tryCore (dd2 s)).toList ++ (tryCore (dd1 s)).toList

/-- Prepend one reading of the optional leading `H:` group onto the core. -/
def withGroup (p : Option (Chars × Chars)) : List (Chars × Chars) :=
  match p with
  | some (g, c0 :: r) =>
    if c0 = ':' then (coreCandidates r).map (fun c => (g ++ ':' :: c.1, c.2)) else []
  | _ => []

/-- All readings of the timestamp pattern (an optional one-or-two-digit hour
    field and colon, then minutes, colon, two digit seconds) at this position,
    in the order the backtracking engine tries them. -/
def tsCandidates (s : Chars) : List (Chars × Chars) :=
  withGroup (dd2 s) ++ withGroup (dd1 s) ++ coreCandidates s

/-- Match the tail of the trailing-timestamp grammar at this position:
    whitespace, a dash, whitespace, a timestamp, then end of line. -/
def endTail (s : Chars) : Option (Chars × Chars) :=
  match skipWs s with
  | c0 :: r2 =>
    if c0 = '-' then
      ((tsCandidates (skipWs r2)).filter
        (fun c => c.2 = [] || c.2.head? = some '\n')).head?
    else none
  | [] => none

/-- Lazy search for the trailing-timestamp grammar from a line start: grow the
    (lazily matched) title one character at a time, never across a newline,
    until the dash-timestamp tail matches up to the end of the line.
    Returns the captured title, the captured timestamp and the rest. -/
def matchEndGo : Chars → Chars → Option (Chars × Chars × Chars)
  | acc, s =>
    match endTail s with
    | some (ts, rest) => some (acc.reverse, ts, rest)
    | none =>
      match s with
      | [] => none
      | c :: r => if c = '\n' then none else matchEndGo (c :: acc) r

/-- The trailing-timestamp grammar (title, dash, timestamp, end of line)
    attempted at a line start. -/
def matchEndAt (s : Chars) : Option ((Chars × Chars) × Chars) :=
  (matchEndGo [] s).map (fun t => ((t.1, t.2.1), t.2.2))

/-- The leading-timestamp grammar (timestamp, optional dash, rest of line)
    attempted at a line start.  Returns ((timestamp, title), rest). -/
def matchStartAt (s : Chars) : Option ((Chars × Chars) × Chars) :=
  match (tsCandidates s).head? with
  | none => none
  | some (ts, r) =>
    let r2 := skipWs r
    let r3 := match r2 with
              | c0 :: rr => if c0 = '-' then skipWs rr else r2
              | [] => r2
    some ((ts, r3.takeWhile (fun c => c ≠ '\n')), r3.dropWhile (fun c => c ≠ '\n'))

/-- One findall scan of a line-anchored MULTILINE pattern: attempt the pattern
    at every line start and resume right after each match.  The fuel is bounded
    by the input length; every step consumes at least one character. -/
def scanGo (f : Chars → Option (α × Chars)) : Nat → Bool → Chars → List α
  | 0, _, _ => []
  | _ + 1, _, [] => []
  | fuel + 1, atLS, c :: r =>
    if atLS then
      match f (c :: r) with
      | some p => p.1 :: scanGo f fuel false p.2
      | none => scanGo f fuel (c = '\n') r
    else scanGo f fuel (c = '\n') r

/-- findall over the whole description, starting at a line start. -/
def scanLines (f : Chars → Option (α × Chars)) (s : Chars) : List α :=
  scanGo f (s.length + 1) true s

/-- All (title, timestamp) matches of the trailing-timestamp grammar. -/
def matchesEnd (d : Chars) : List (Chars × Chars) := scanLines matchEndAt d

/-- All (timestamp, title) matches of the leading-timestamp grammar. -/
def matchesStart (d : Chars) : List (Chars × Chars) := scanLines matchStartAt d

/-- Python str.strip(): remove leading and trailing whitespace. -/
def stripChars (s : Chars) : Chars :=
  ((s.dropWhile isPySpace).reverse.dropWhile isPySpace).reverse

/-- Strip a leading track number: one or more digits, whitespace, an optional
    dot or dash, and whitespace, anchored at the start of the title. -/
def subLeadingNum (t : Chars) : Chars :=
  match t with
  | c :: _ =>
    if c.isDigit then
      let r1 := t.dropWhile Char.isDigit
      let r2 := r1.dropWhile isPySpace
      let r3 := match r2 with
                | c2 :: rr => if c2 = '.' || c2 = '-' then rr else r2
                | [] => r2
      r3.dropWhile isPySpace
    else t
  | [] => t

/-- The cleaned title of a trailing-timestamp match. -/
def cleanTitle (t : Chars) : Chars := stripChars (subLeadingNum t)

/-- The numeric value of a digit string. -/
def digitsVal (l : Chars) : Nat :=
  l.foldl (fun a c => a * 10 + (c.toNat - '0'.toNat)) 0

/-- Python int() on a string: strip whitespace, optional sign, digits.
    none models the ValueError raised on malformed input. -/
def pyInt (s : Chars) : Option Int :=
  match stripChars s with
  | [] => none
  | c :: r =>
    if c = '-' then
      if r ≠ [] && r.all Char.isDigit then some (-(digitsVal r : Int)) else none
    else if c = '+' then
      if r ≠ [] && r.all Char.isDigit then some (digitsVal r) else none
    else if (c :: r).all Char.isDigit then some (digitsVal (c :: r)) else none

/-- Python str.split(':'): split on every colon, keeping empty parts. -/
def splitColon : Chars → List Chars
  | [] => [[]]
  | c :: r =>
    if c = ':' then [] :: splitColon r
    else
      match splitColon r with
      | p :: ps => (c :: p) :: ps
      | [] => [[c]]

/-- timestamp_to_seconds: split on colons, parse each field as an int, and
    combine three fields as H:MM:SS, two as MM:SS, anything else as 0.
    none models the ValueError raised when a field is not an integer. -/
def timestamp_to_seconds (ts : Chars) : Option Int :=
  match (splitColon ts).mapM pyInt with
  | none => none
  | some parts =>
    match parts with
    | [a, b, c] => some (a * 3600 + b * 60 + c)
    | [a, b] => some (a * 60 + b)
    | _ => some 0

/-- A tracklist entry: a start offset in seconds and a title. -/
structure Entry where
  start_seconds : Int
  title : Chars
deriving DecidableEq, Repr

/-- Comparison key used by the final sort of the tracklist. -/
def entryLe (a b : Entry) : Prop := a.start_seconds ≤ b.start_seconds

instance : DecidableRel entryLe :=
  fun a b => inferInstanceAs (Decidable (a.start_seconds ≤ b.start_seconds))

instance : IsTotal Entry entryLe :=
  ⟨fun a b => Int.le_total a.start_seconds b.start_seconds⟩

instance : IsTrans Entry entryLe :=
  ⟨fun _ _ _ h1 h2 => le_trans h1 h2⟩

/-- Python substring containment: needle in hay. -/
def strContains (hay needle : Chars) : Bool :=
  (List.range (hay.length + 1)).any (fun i => needle.isPrefixOf (hay.drop i))

/-- The entries captured by the trailing-timestamp grammar, with cleaned
    titles.  An error models a ValueError escaping from int(). -/
def entriesEnd (d : Chars) : Except Unit (List Entry) :=
  (matchesEnd d).mapM (fun m =>
    match timestamp_to_seconds m.2 with
    | some s => Except.ok ⟨s, cleanTitle m.1⟩
    | none => Except.error ())

/-- Fold the leading-timestamp matches onto the accumulated tracklist,
    dropping a match when the title of an already-captured entry is a
    substring of its title. -/
def addStartMatches (ms : List (Chars × Chars)) (init : List Entry) :
    Except Unit (List Entry) :=
  ms.foldlM (fun acc m =>
    if acc.any (fun t => strContains m.2 t.title) then Except.ok acc
    else
      match timestamp_to_seconds m.1 with
      | some s => Except.ok (acc ++ [⟨s, stripChars m.2⟩])
      | none => Except.error ()) init

/-- The full accumulated tracklist, both grammars. -/
def buildTracklist (d : Chars) : Except Unit (List Entry) :=
  match entriesEnd d with
  | .error e => .error e
  | .ok tl1 => addStartMatches (matchesStart d) tl1

/-- parse_timestamps_from_description: accumulate matches of both grammars,
    return none when no entry was found, otherwise sort ascending by start
    offset (stable) and return the tracklist when it has at least two
    entries, none otherwise.  An error models an escaping exception. -/
def parse_timestamps_from_description (d : String) :
    Except Unit (Option (List Entry)) :=
  match buildTracklist d.data with
  | .error e => .error e
  | .ok tl =>
    if tl = [] then .ok none
    else
      let sorted := List.insertionSort entryLe tl
      .ok (if 2 ≤ sorted.length then some sorted else none)

/-- A transcription segment: start offset, end offset, text. -/
structure TransSeg where
  start : ℚ
  stop : ℚ
  text : String
deriving DecidableEq

/-- A clip specification as stored in the metadata clips list. -/
structure ClipInfo where
  title : String
  description : Option String
  start_s : ℚ
  end_s : ℚ
deriving DecidableEq

/-- The metadata object produced by the AI stage or by direct mode. -/
structure Metadata where
  original_url : String
  original_title : String
  clips : List ClipInfo
deriving DecidableEq

/-- Contents of a file in the model filesystem. -/
inductive FileContent where
  | video
  | audioF
  | clip
  | transJson (segs : List TransSeg)
  | metaJson (m : Metadata)
deriving DecidableEq

/-- The filesystem: an association list from paths to contents.  Writing
    prepends, so the newest write wins on lookup. -/
abbrev FS := List (String × FileContent)

def fsGet (fs : FS) (p : String) : Option FileContent := fs.lookup p

def fsPut (fs : FS) (p : String) (c : FileContent) : FS := (p, c) :: fs

/-- Oracles for the external capabilities.  A none or false result models the
    corresponding library call raising an exception. -/
structure Env where
  extractInfo : String → Option (String × String)
  downloadOk : Bool
  extractAudioOk : Bool
  whisper : Option (List TransSeg)
  aiClips : Option (List ClipInfo)
  duration : ℚ
  renderOk : Nat → Bool
  promptDefault : Option String

/-- One call to an external capability, recorded in order of occurrence.
    netInfo is the metadata probe of yt-dlp (extract_info without download);
    render records the effective sub-range handed to the encoder. -/
inductive Effect where
  | netInfo
  | netDownload
  | audioExtract
  | transcribe
  | aiCall
  | render (idx : Nat) (a b : ℚ)
deriving DecidableEq

/-- Characters allowed in a video id. -/
def idChar (c : Char) : Bool :=
  c.isDigit || ('A' ≤ c && c ≤ 'Z') || ('a' ≤ c && c ≤ 'z') || c = '_' || c = '-'

/-- Attempt the video-id pattern at one position: the literal v= or a slash,
    then exactly eleven id characters. -/
def vidAt (s : Chars) : Option Chars :=
  let tryAfter : Chars → Option Chars := fun r =>
    let cand := r.take 11
    if cand.length = 11 && cand.all idChar then some cand else none
  match s with
  | 'v' :: '=' :: r => tryAfter r
  | '/' :: r => tryAfter r
  | _ => none

/-- re.search: leftmost position where the pattern matches. -/
def searchVid : Chars → Option Chars
  | [] => none
  | s@(_ :: r) =>
    match vidAt s with
    | some c => some c
    | none => searchVid r

/-- get_video_id: extract the eleven-character video id from the URL. -/
def get_video_id (url : String) : Option String :=
  (searchVid url.data).map List.asString

/-- sanitize_filename: keep alphanumerics, space, underscore and dash, then
    strip trailing whitespace. -/
def sanitize_filename (name : String) : String :=
  (((name.data.filter
      (fun c => c.isAlphanum || c = ' ' || c = '_' || c = '-')).reverse.dropWhile
        isPySpace).reverse).asString

/-- The deterministic output path of clip number i plus one. -/
def clipFilename (project_folder : String) (i : Nat) (title : String) : String :=
  project_folder ++ "/clip_" ++ toString (i + 1) ++ "_" ++ sanitize_filename title ++ ".mp4"

/-- download_video: probe metadata over the network, then skip the download
    when the target file already exists, otherwise download.  A none result
    models the caught exception path returning (None, None, None). -/
def download_video (env : Env) (fs : FS) (url cache_folder : String) :
    FS × List Effect × Option (String × String × String) :=
  match env.extractInfo url with
  | none => (fs, [Effect.netInfo], none)
  | some (title, desc) =>
    let path := cache_folder ++ "/downloaded_video.mp4"
    if (fsGet fs path).isSome then (fs, [Effect.netInfo], some (path, title, desc))
    else if env.downloadOk then
      (fsPut fs path FileContent.video, [Effect.netInfo, Effect.netDownload],
        some (path, title, desc))
    else (fs, [Effect.netInfo, Effect.netDownload], none)

/-- extract_audio: skip when the audio file already exists, otherwise demux. -/
def extract_audio (env : Env) (fs : FS) (_video_path audio_path : String) :
    FS × List Effect × Option String :=
  if (fsGet fs audio_path).isSome then (fs, [], some audio_path)
  else if env.extractAudioOk then
    (fsPut fs audio_path FileContent.audioF, [Effect.audioExtract], some audio_path)
  else (fs, [Effect.audioExtract], none)

/-- get_transcription_segments: return the cached segments when the cache file
    exists, otherwise transcribe and persist.  A cache file holding anything
    but a transcription is a fatal decode failure (modelled as none: either
    way the job attempt fails). -/
def get_transcription_segments (env : Env) (fs : FS)
    (_audio_path transcription_path : String) :
    FS × List Effect × Option (List TransSeg) :=
  match fsGet fs transcription_path with
  | some (FileContent.transJson segs) => (fs, [], some segs)
  | some _ => (fs, [], none)
  | none =>
    match env.whisper with
    | some segs =>
      (fsPut fs transcription_path (FileContent.transJson segs),
        [Effect.transcribe], some segs)
    | none => (fs, [Effect.transcribe], none)

/-- get_or_create_metadata_from_ai: return the cached metadata when the cache
    file exists, otherwise call the model, build the metadata object from its
    clips and persist it. -/
def get_or_create_metadata_from_ai (env : Env) (fs : FS)
    (_segments : List TransSeg) (metadata_path original_title url _prompt : String) :
    FS × List Effect × Option Metadata :=
  match fsGet fs metadata_path with
  | some (FileContent.metaJson m) => (fs, [], some m)
  | some _ => (fs, [], none)
  | none =>
    match env.aiClips with
    | some clips =>
      let m : Metadata := ⟨url, original_title, clips⟩
      (fsPut fs metadata_path (FileContent.metaJson m), [Effect.aiCall], some m)
    | none => (fs, [Effect.aiCall], none)

/-- The per-segment loop of create_video_clips, carried with the enumeration
    index.  A clip whose target file already exists is included without
    re-encoding; otherwise the effective sub-range is rendered (a one second
    end buffer, only with subtitles, clamped to the source duration).  none
    models the exception that aborts the whole loop: files already written
    stay on disk, the clip list so far is discarded. -/
def renderLoop (env : Env) (subs : Bool) (folder : String) :
    FS → Nat → List ClipInfo → FS × List Effect × Option (List String)
  | fs, _, [] => (fs, [], some [])
  | fs, i, ci :: rest =>
    let fname := clipFilename folder i ci.title
    if (fsGet fs fname).isSome then
      let r := renderLoop env subs folder fs (i + 1) rest
      (r.1, r.2.1, r.2.2.map (fname :: ·))
    else
      let endB := min env.duration (ci.end_s + (if subs then 1 else 0))
      if env.renderOk i then
        let r := renderLoop env subs folder (fsPut fs fname FileContent.clip) (i + 1) rest
        (r.1, Effect.render i ci.start_s endB :: r.2.1, r.2.2.map (fname :: ·))
      else (fs, [Effect.render i ci.start_s endB], none)

/-- create_video_clips: open the source video and render each clip of the
    metadata; on any exception return the empty list (the metadata structure
    always carries its clips key, so the invalid-metadata guard passes). -/
def create_video_clips (env : Env) (fs : FS) (video_path : String)
    (metadata : Metadata) (project_folder : String) (with_subtitles : Bool)
    (_segments : List TransSeg) : FS × List Effect × List String :=
  if (fsGet fs video_path).isNone then (fs, [], [])
  else
    match renderLoop env with_subtitles project_folder fs 0 metadata.clips with
    | (fs1, evs, some l) => (fs1, evs, l)
    | (fs1, evs, none) => (fs1, evs, [])

def cacheFolder (vid : String) : String := "output/" ++ vid ++ "/_cache"

def jobFolder (vid : String) (job_id : Nat) : String :=
  "output/" ++ vid ++ "/" ++ toString job_id

def videoPath (vid : String) : String := cacheFolder vid ++ "/downloaded_video.mp4"

def audioPath (vid : String) : String := cacheFolder vid ++ "/audio.mp3"

def transPath (vid : String) : String :=
  cacheFolder vid ++ "/transcription_segments.json"

def metaPath (vid : String) (job_id : Nat) : String :=
  jobFolder vid job_id ++ "/metadata.json"

/-- run_processing_pipeline: the worker orchestrator.  Stages run in order,
    each returning the updated filesystem, its effects and its result; a falsy
    stage result raises the corresponding exception (the error message). -/
def run_processing_pipeline (env : Env) (fs : FS) (job_id : Nat) (url : String) :
    FS × List Effect × Except String (List String) :=
  match get_video_id url with
  | none => (fs, [], Except.error "Could not extract video ID from URL.")
  | some vid =>
    match env.promptDefault with
    | none => (fs, [], Except.error "Default prompt not found.")
    | some prompt =>
      match download_video env fs url (cacheFolder vid) with
      | (fs1, e1, none) => (fs1, e1, Except.error "Download failed.")
      | (fs1, e1, some (video_file, video_title, _)) =>
        match extract_audio env fs1 video_file (audioPath vid) with
        | (fs2, e2, none) => (fs2, e1 ++ e2, Except.error "Audio extraction failed.")
        | (fs2, e2, some audio_file) =>
          match get_transcription_segments env fs2 audio_file (transPath vid) with
          | (fs3, e3, none) =>
            (fs3, e1 ++ e2 ++ e3, Except.error "Transcription failed.")
          | (fs3, e3, some segs) =>
            if segs = [] then
              (fs3, e1 ++ e2 ++ e3, Except.error "Transcription failed.")
            else
              match get_or_create_metadata_from_ai env fs3 segs
                  (metaPath vid job_id) video_title url prompt with
              | (fs4, e4, none) =>
                (fs4, e1 ++ e2 ++ e3 ++ e4, Except.error "Failed to generate AI metadata.")
              | (fs4, e4, some metadata) =>
                match create_video_clips env fs4 video_file metadata
                    (jobFolder vid job_id) false segs with
                | (fs5, e5, paths) =>
                  if paths = [] then
                    (fs5, e1 ++ e2 ++ e3 ++ e4 ++ e5,
                      Except.error "Clip creation process failed.")
                  else (fs5, e1 ++ e2 ++ e3 ++ e4 ++ e5, Except.ok paths)

/-- One write of the job status to the external store. -/
inductive JobWrite where
  | processing
  | completed (paths : List String)
  | failed (msg : String)
deriving DecidableEq

/-- process_video_task: set PROCESSING, run the pipeline inside the try, and
    write COMPLETED with the artifact list on success or FAILED with the
    captured message on any exception.  The write list is in temporal order. -/
def process_video_task (env : Env) (fs : FS) (job_id : Nat) (url : String) :
    FS × List Effect × List JobWrite :=
  match run_processing_pipeline env fs job_id url with
  | (fs1, effs, Except.ok paths) =>
    (fs1, effs, [JobWrite.processing, JobWrite.completed paths])
  | (fs1, effs, Except.error e) =>
    (fs1, effs, [JobWrite.processing, JobWrite.failed ("An error occurred: " ++ e)])

/-- Direct clipping mode of main.py: one clip per tracklist entry, ending at
    the next entry's start, the last entry getting a 180 second fallback. -/
def direct_mode_clips (video_title : String) : List Entry → List ClipInfo
  | [] => []
  | e :: rest =>
    let end_s : Int :=
      match rest with
      | e2 :: _ => e2.start_seconds
      | [] => e.start_seconds + 180
    { title := e.title.asString,
      description := some ("Clip of the song " ++ e.title.asString ++
        " from the show " ++ video_title ++ "."),
      start_s := (e.start_seconds : ℚ),
      end_s := (end_s : ℚ) } :: direct_mode_clips video_title rest

/-- C1: the job lifecycle handler writes PROCESSING first, then exactly one
    terminal status: COMPLETED with the pipeline's ordered artifact list when
    the pipeline returns, FAILED with the captured error description when the
    pipeline raises; the status is never left at PROCESSING and no exception
    escapes the task. -/
theorem c1_job_lifecycle_status_writes (env : Env) (fs : FS) (job_id : Nat)
    (url : String) :
    (process_video_task env fs job_id url).2.2.head? = some JobWrite.processing ∧
    (∀ l, (run_processing_pipeline env fs job_id url).2.2 = Except.ok l →
      (process_video_task env fs job_id url).2.2 =
        [JobWrite.processing, JobWrite.completed l]) ∧
    (∀ e, (run_processing_pipeline env fs job_id url).2.2 = Except.error e →
      (process_video_task env fs job_id url).2.2 =
        [JobWrite.processing, JobWrite.failed ("An error occurred: " ++ e)]) ∧
    ((∃ l, (process_video_task env fs job_id url).2.2 =
        [JobWrite.processing, JobWrite.completed l]) ∨
     (∃ m, (process_video_task env fs job_id url).2.2 =
        [JobWrite.processing, JobWrite.failed m])) := by
  rcases hp : run_processing_pipeline env fs job_id url with ⟨fs1, effs, res⟩
  cases res with
  | ok l =>
    refine ⟨by simp [process_video_task, hp], ?_, ?_,
      Or.inl ⟨l, by simp [process_video_task, hp]⟩⟩
    · intro l2 hl2
      simp at hl2
      subst hl2
      simp [process_video_task, hp]
    · intro e he
      simp at he
  | error e =>
    refine ⟨by simp [process_video_task, hp], ?_, ?_,
      Or.inr ⟨"An error occurred: " ++ e, by simp [process_video_task, hp]⟩⟩
    · intro l2 hl2
      simp at hl2
    · intro e2 he2
      simp at he2
      subst he2
      simp [process_video_task, hp]

/-- Witness for C1: on a URL with no extractable video id the pipeline raises
    and the task records PROCESSING then FAILED with the captured message. -/
theorem c1_witness :
    (process_video_task
      ⟨fun _ => none, false, false, none, none, 0, fun _ => false, none⟩
      [] 1 "x").2.2 =
    [JobWrite.processing,
     JobWrite.failed ("An error occurred: " ++ "Could not extract video ID from URL.")] :=
  (c1_job_lifecycle_status_writes
    ⟨fun _ => none, false, false, none, none, 0, fun _ => false, none⟩
    [] 1 "x").2.2.1 "Could not extract video ID from URL." rfl

/-- C3: for both cached stages (transcription and AI metadata), a first call
    with an empty cache invokes the producer once and persists the result;
    a second call on the same target path returns that result unchanged with
    an empty effect trace, whatever the second environment's producers would
    do (in particular when they would raise). -/
theorem c3_stage_cache_memoization (env : Env) (fs : FS)
    (ap tp mp t u p : String) (segs : List TransSeg) (clips : List ClipInfo)
    (htp : fsGet fs tp = none) (hw : env.whisper = some segs)
    (hmp : fsGet fs mp = none) (hai : env.aiClips = some clips) :
    (get_transcription_segments env fs ap tp =
      (fsPut fs tp (FileContent.transJson segs), [Effect.transcribe], some segs) ∧
     ∀ (env2 : Env) (ap2 : String),
       get_transcription_segments env2 (fsPut fs tp (FileContent.transJson segs)) ap2 tp =
         (fsPut fs tp (FileContent.transJson segs), [], some segs)) ∧
    (get_or_create_metadata_from_ai env fs segs mp t u p =
      (fsPut fs mp (FileContent.metaJson ⟨u, t, clips⟩), [Effect.aiCall],
        some ⟨u, t, clips⟩) ∧
     ∀ (env2 : Env) (segs2 : List TransSeg) (t2 u2 p2 : String),
       get_or_create_metadata_from_ai env2
           (fsPut fs mp (FileContent.metaJson ⟨u, t, clips⟩)) segs2 mp t2 u2 p2 =
         (fsPut fs mp (FileContent.metaJson ⟨u, t, clips⟩), [], some ⟨u, t, clips⟩)) := by
  refine ⟨⟨?_, ?_⟩, ?_, ?_⟩
  · simp [get_transcription_segments, htp, hw]
  · intro env2 ap2
    simp [get_transcription_segments, fsGet, fsPut, List.lookup]
  · simp [get_or_create_metadata_from_ai, hmp, hai]
  · intro env2 segs2 t2 u2 p2
    simp [get_or_create_metadata_from_ai, fsGet, fsPut, List.lookup]

/-- Witness for C3: a concrete first call persists the transcription, and the
    second call with an environment whose producers would all raise still
    returns it, with no producer invocation recorded. -/
theorem c3_witness :
    get_transcription_segments
      ⟨fun _ => none, false, false, none, none, 0, fun _ => false, none⟩
      (fsPut [] "t" (FileContent.transJson [⟨0, 1, "x"⟩])) "a2" "t" =
    (fsPut [] "t" (FileContent.transJson [⟨0, 1, "x"⟩]), [], some [⟨0, 1, "x"⟩]) :=
  ((c3_stage_cache_memoization
    ⟨fun _ => none, false, false, some [⟨0, 1, "x"⟩], some [], 0, fun _ => false, none⟩
    [] "a" "t" "m" "t0" "u" "p" [⟨0, 1, "x"⟩] [] rfl rfl rfl rfl).1.2)
    ⟨fun _ => none, false, false, none, none, 0, fun _ => false, none⟩ "a2"

/-- C7: direct-mode segment synthesis produces one clip per tracklist entry
    in order: same title, start equal to the entry's start offset, end equal
    to the next entry's start offset, and start plus 180 seconds for the
    last entry. -/
theorem c7_direct_mode_segments (t : String) :
    (∀ tl : List Entry, (direct_mode_clips t tl).length = tl.length) ∧
    (∀ (tl : List Entry) (i : Nat) (e : Entry), tl[i]? = some e →
      (direct_mode_clips t tl)[i]? = some
        { title := e.title.asString,
          description := some ("Clip of the song " ++ e.title.asString ++
            " from the show " ++ t ++ "."),
          start_s := (e.start_seconds : ℚ),
          end_s := match tl[i + 1]? with
                   | some e2 => (e2.start_seconds : ℚ)
                   | none => ((e.start_seconds + 180 : Int) : ℚ) }) := by
  constructor
  · intro tl
    induction tl with
    | nil => rfl
    | cons e rest ih => simp [direct_mode_clips, ih]
  · intro tl
    induction tl with
    | nil => intro i e h; simp at h
    | cons e0 rest ih =>
      intro i e h
      cases i with
      | zero =>
        simp at h
        subst h
        cases rest with
        | nil => simp [direct_mode_clips]
        | cons e2 rest2 => simp [direct_mode_clips]
      | succ i =>
        simp at h
        have := ih i e h
        simpa [direct_mode_clips] using this

/-- Witness for C7: the example tracklist from the specification.  The middle
    entry ends at the next entry's start; the last gets the 180 second
    fallback (250 + 180 = 430). -/
theorem c7_witness :
    (direct_mode_clips "S" [⟨0, ['A']⟩, ⟨100, ['B']⟩, ⟨250, ['C']⟩])[1]? =
      some { title := "B",
             description := some "Clip of the song B from the show S.",
             start_s := (100 : ℚ), end_s := (250 : ℚ) } ∧
    (direct_mode_clips "S" [⟨0, ['A']⟩, ⟨100, ['B']⟩, ⟨250, ['C']⟩])[2]? =
      some { title := "C",
             description := some "Clip of the song C from the show S.",
             start_s := (250 : ℚ), end_s := (430 : ℚ) } := by
  constructor
  · have h := (c7_direct_mode_segments "S").2
      [⟨0, ['A']⟩, ⟨100, ['B']⟩, ⟨250, ['C']⟩] 1 ⟨100, ['B']⟩ rfl
    simpa using h
  · have h := (c7_direct_mode_segments "S").2
      [⟨0, ['A']⟩, ⟨100, ['B']⟩, ⟨250, ['C']⟩] 2 ⟨250, ['C']⟩ rfl
    simpa using h

theorem fsGet_fsPut (fs : FS) (p q : String) (c : FileContent) :
    fsGet (fsPut fs q c) p = if p = q then some c else fsGet fs p := by
  by_cases h : p = q
  · simp [fsGet, fsPut, List.lookup, h]
  · have hb : (p == q) = false := beq_eq_false_iff_ne.mpr h
    simp [fsGet, fsPut, List.lookup, h, hb]

theorem renderLoop_cons_cached (env : Env) (subs : Bool) (folder : String)
    {fs : FS} {i : Nat} {ci : ClipInfo} {rest : List ClipInfo}
    (h : (fsGet fs (clipFilename folder i ci.title)).isSome = true) :
    renderLoop env subs folder fs i (ci :: rest) =
      ((renderLoop env subs folder fs (i + 1) rest).1,
       (renderLoop env subs folder fs (i + 1) rest).2.1,
       (renderLoop env subs folder fs (i + 1) rest).2.2.map
         (clipFilename folder i ci.title :: ·)) := by
  rw [renderLoop]
  simp only [h, if_true]

theorem renderLoop_cons_render (env : Env) (subs : Bool) (folder : String)
    {fs : FS} {i : Nat} {ci : ClipInfo} {rest : List ClipInfo}
    (h : (fsGet fs (clipFilename folder i ci.title)).isSome = false)
    (hok : env.renderOk i = true) :
    renderLoop env subs folder fs i (ci :: rest) =
      ((renderLoop env subs folder
          (fsPut fs (clipFilename folder i ci.title) FileContent.clip) (i + 1) rest).1,
       Effect.render i ci.start_s (min env.duration (ci.end_s + (if subs then 1 else 0))) ::
         (renderLoop env subs folder
           (fsPut fs (clipFilename folder i ci.title) FileContent.clip) (i + 1) rest).2.1,
       (renderLoop env subs folder
          (fsPut fs (clipFilename folder i ci.title) FileContent.clip) (i + 1) rest).2.2.map
         (clipFilename folder i ci.title :: ·)) := by
  rw [renderLoop]
  simp only [h, hok, if_true, if_false, Bool.false_eq_true]

theorem renderLoop_cons_fail (env : Env) (subs : Bool) (folder : String)
    {fs : FS} {i : Nat} {ci : ClipInfo} {rest : List ClipInfo}
    (h : (fsGet fs (clipFilename folder i ci.title)).isSome = false)
    (hok : env.renderOk i = false) :
    renderLoop env subs folder fs i (ci :: rest) =
      (fs, [Effect.render i ci.start_s
              (min env.duration (ci.end_s + (if subs then 1 else 0)))], none) := by
  rw [renderLoop]
  simp only [h, hok, if_true, if_false, Bool.false_eq_true]

theorem renderLoop_render_events (env : Env) (subs : Bool) (folder : String) :
    ∀ (clips : List ClipInfo) (fs : FS) (i0 i : Nat) (a b : ℚ),
      Effect.render i a b ∈ (renderLoop env subs folder fs i0 clips).2.1 →
      ∃ ci, clips[i - i0]? = some ci ∧ i0 ≤ i ∧ a = ci.start_s ∧
        b = min env.duration (ci.end_s + (if subs then 1 else 0)) := by
  intro clips
  induction clips with
  | nil => intro fs i0 i a b h; simp [renderLoop] at h
  | cons ci rest ih =>
    intro fs i0 i a b h
    cases hf : (fsGet fs (clipFilename folder i0 ci.title)).isSome with
    | true =>
      rw [renderLoop_cons_cached env subs folder hf] at h
      obtain ⟨ci2, hg, hle, ha, hb⟩ := ih _ _ _ _ _ h
      refine ⟨ci2, ?_, by omega, ha, hb⟩
      have hi : i - i0 = (i - (i0 + 1)) + 1 := by omega
      rw [hi, List.getElem?_cons_succ]
      exact hg
    | false =>
      cases hr : env.renderOk i0 with
      | true =>
        rw [renderLoop_cons_render env subs folder hf hr] at h
        rcases List.mem_cons.mp h with h | h
        · obtain ⟨rfl, rfl, rfl⟩ := Effect.render.inj h
          exact ⟨ci, by simp, le_refl _, rfl, rfl⟩
        · obtain ⟨ci2, hg, hle, ha, hb⟩ := ih _ _ _ _ _ h
          refine ⟨ci2, ?_, by omega, ha, hb⟩
          have hi : i - i0 = (i - (i0 + 1)) + 1 := by omega
          rw [hi, List.getElem?_cons_succ]
          exact hg
      | false =>
        rw [renderLoop_cons_fail env subs folder hf hr] at h
        simp only [List.mem_cons, List.not_mem_nil, or_false] at h
        obtain ⟨rfl, rfl, rfl⟩ := Effect.render.inj h
        exact ⟨ci, by simp, le_refl _, rfl, rfl⟩

/-- C8: every render event carries the segment's start offset and an end
    boundary of min(duration, end + 1) when captions are requested, and
    min(duration, end) without captions (no buffer). -/
theorem c8_effective_render_range (env : Env) (fs : FS) (vp : String)
    (m : Metadata) (folder : String) (subs : Bool) (segs : List TransSeg)
    (i : Nat) (a b : ℚ)
    (h : Effect.render i a b ∈ (create_video_clips env fs vp m folder subs segs).2.1) :
    ∃ ci, m.clips[i]? = some ci ∧ a = ci.start_s ∧
      b = min env.duration (ci.end_s + (if subs then 1 else 0)) := by
  unfold create_video_clips at h
  by_cases hv : (fsGet fs vp).isNone
  · rw [if_pos hv] at h
    simp at h
  · rw [if_neg hv] at h
    have h2 : Effect.render i a b ∈ (renderLoop env subs folder fs 0 m.clips).2.1 := by
      rcases hrl : renderLoop env subs folder fs 0 m.clips with ⟨fs1, evs, out⟩
      rw [hrl] at h
      cases out with
      | some l => exact h
      | none => exact h
    obtain ⟨ci, hg, _, ha, hb⟩ := renderLoop_render_events env subs folder m.clips fs 0 i a b h2
    refine ⟨ci, ?_, ha, hb⟩
    simpa using hg

/-- Witness for C8: a 500 second source, segment from 10 to 20 with captions
    enabled renders the range from 10 to 21. -/
theorem c8_witness :
    ∃ ci, (Metadata.mk "u" "t" [⟨"A", none, 10, 20⟩]).clips[0]? = some ci ∧
      (10 : ℚ) = ci.start_s ∧ (21 : ℚ) = min (500 : ℚ) (ci.end_s + 1) := by
  have hmin : min (500 : ℚ) (20 + 1) = 21 := by
    rw [min_eq_right (by norm_num : (20 + 1 : ℚ) ≤ 500)]
    norm_num
  refine c8_effective_render_range
    ⟨fun _ => none, false, false, none, none, 500, fun _ => true, none⟩
    [("v", FileContent.video)] "v" ⟨"u", "t", [⟨"A", none, 10, 20⟩]⟩ "f" true []
    0 10 21 ?_
  have hlist : (create_video_clips
      ⟨fun _ => none, false, false, none, none, 500, fun _ => true, none⟩
      [("v", FileContent.video)] "v" ⟨"u", "t", [⟨"A", none, 10, 20⟩]⟩ "f" true
      []).2.1 = [Effect.render 0 10 (min (500 : ℚ) (20 + 1))] := rfl
  rw [hlist, hmin]
  exact List.mem_singleton_self _

theorem renderLoop_ok_events (env : Env) (subs : Bool) (folder : String) :
    ∀ (clips : List ClipInfo) (fs : FS) (i0 : Nat) (l : List String),
      (renderLoop env subs folder fs i0 clips).2.2 = some l →
      ∀ i a b, Effect.render i a b ∈ (renderLoop env subs folder fs i0 clips).2.1 →
        env.renderOk i = true := by
  intro clips
  induction clips with
  | nil => intro fs i0 l hl i a b h; simp [renderLoop] at h
  | cons ci rest ih =>
    intro fs i0 l hl i a b h
    cases hf : (fsGet fs (clipFilename folder i0 ci.title)).isSome with
    | true =>
      rw [renderLoop_cons_cached env subs folder hf] at hl h
      dsimp only at hl h
      rcases Option.map_eq_some'.mp hl with ⟨l0, hl0, _⟩
      exact ih _ _ l0 hl0 i a b h
    | false =>
      cases hr : env.renderOk i0 with
      | true =>
        rw [renderLoop_cons_render env subs folder hf hr] at hl h
        dsimp only at hl h
        rcases List.mem_cons.mp h with h | h
        · obtain ⟨rfl, rfl, rfl⟩ := Effect.render.inj h
          exact hr
        · rcases Option.map_eq_some'.mp hl with ⟨l0, hl0, _⟩
          exact ih _ _ l0 hl0 i a b h
      | false =>
        rw [renderLoop_cons_fail env subs folder hf hr] at hl
        simp at hl

theorem renderLoop_fail_bound (env : Env) (subs : Bool) (folder : String) :
    ∀ (clips : List ClipInfo) (fs : FS) (i0 i : Nat) (a b : ℚ),
      Effect.render i a b ∈ (renderLoop env subs folder fs i0 clips).2.1 →
      env.renderOk i = false →
      ∀ j a2 b2, Effect.render j a2 b2 ∈ (renderLoop env subs folder fs i0 clips).2.1 →
        j ≤ i := by
  intro clips
  induction clips with
  | nil => intro fs i0 i a b h _ j a2 b2 _; simp [renderLoop] at h
  | cons ci rest ih =>
    intro fs i0 i a b h hfail j a2 b2 hj
    cases hf : (fsGet fs (clipFilename folder i0 ci.title)).isSome with
    | true =>
      rw [renderLoop_cons_cached env subs folder hf] at h hj
      dsimp only at h hj
      exact ih _ _ _ _ _ h hfail j a2 b2 hj
    | false =>
      cases hr : env.renderOk i0 with
      | true =>
        rw [renderLoop_cons_render env subs folder hf hr] at h hj
        dsimp only at h hj
        rcases List.mem_cons.mp h with h | h
        · obtain ⟨rfl, rfl, rfl⟩ := Effect.render.inj h
          rw [hr] at hfail
          cases hfail
        · rcases List.mem_cons.mp hj with hj | hj
          · obtain ⟨rfl, rfl, rfl⟩ := Effect.render.inj hj
            obtain ⟨_, _, hle, _, _⟩ :=
              renderLoop_render_events env subs folder rest _ _ _ _ _ h
            omega
          · exact ih _ _ _ _ _ h hfail j a2 b2 hj
      | false =>
        rw [renderLoop_cons_fail env subs folder hf hr] at h hj
        simp only [List.mem_cons, List.not_mem_nil, or_false] at h hj
        obtain ⟨rfl, _, _⟩ := Effect.render.inj h
        obtain ⟨rfl, _, _⟩ := Effect.render.inj hj
        exact le_refl _

theorem renderLoop_preserves_clip (env : Env) (subs : Bool) (folder : String) :
    ∀ (clips : List ClipInfo) (fs : FS) (i0 : Nat) (p : String),
      fsGet fs p = some FileContent.clip →
      fsGet (renderLoop env subs folder fs i0 clips).1 p = some FileContent.clip := by
  intro clips
  induction clips with
  | nil => intro fs i0 p hp; simpa [renderLoop] using hp
  | cons ci rest ih =>
    intro fs i0 p hp
    cases hf : (fsGet fs (clipFilename folder i0 ci.title)).isSome with
    | true =>
      rw [renderLoop_cons_cached env subs folder hf]
      exact ih _ _ p hp
    | false =>
      cases hr : env.renderOk i0 with
      | true =>
        rw [renderLoop_cons_render env subs folder hf hr]
        refine ih _ _ p ?_
        rw [fsGet_fsPut]
        by_cases hpq : p = clipFilename folder i0 ci.title
        · simp [hpq]
        · simp [hpq, hp]
      | false =>
        rw [renderLoop_cons_fail env subs folder hf hr]
        exact hp

theorem renderLoop_success_persists (env : Env) (subs : Bool) (folder : String) :
    ∀ (clips : List ClipInfo) (fs : FS) (i0 i : Nat) (a b : ℚ),
      Effect.render i a b ∈ (renderLoop env subs folder fs i0 clips).2.1 →
      env.renderOk i = true →
      ∃ ci, clips[i - i0]? = some ci ∧
        fsGet (renderLoop env subs folder fs i0 clips).1
          (clipFilename folder i ci.title) = some FileContent.clip := by
  intro clips
  induction clips with
  | nil => intro fs i0 i a b h _; simp [renderLoop] at h
  | cons ci rest ih =>
    intro fs i0 i a b h hok
    cases hf : (fsGet fs (clipFilename folder i0 ci.title)).isSome with
    | true =>
      rw [renderLoop_cons_cached env subs folder hf] at h ⊢
      dsimp only at h ⊢
      obtain ⟨_, _, hle, _, _⟩ := renderLoop_render_events env subs folder rest _ _ _ _ _ h
      obtain ⟨ci2, hg, hfs⟩ := ih _ _ _ _ _ h hok
      refine ⟨ci2, ?_, hfs⟩
      have hi : i - i0 = (i - (i0 + 1)) + 1 := by omega
      rw [hi, List.getElem?_cons_succ]
      exact hg
    | false =>
      cases hr : env.renderOk i0 with
      | true =>
        rw [renderLoop_cons_render env subs folder hf hr] at h ⊢
        dsimp only at h ⊢
        rcases List.mem_cons.mp h with h | h
        · obtain ⟨rfl, rfl, rfl⟩ := Effect.render.inj h
          refine ⟨ci, by simp, ?_⟩
          apply renderLoop_preserves_clip
          rw [fsGet_fsPut]
          simp
        · obtain ⟨_, _, hle, _, _⟩ := renderLoop_render_events env subs folder rest _ _ _ _ _ h
          obtain ⟨ci2, hg, hfs⟩ := ih _ _ _ _ _ h hok
          refine ⟨ci2, ?_, hfs⟩
          have hi : i - i0 = (i - (i0 + 1)) + 1 := by omega
          rw [hi, List.getElem?_cons_succ]
          exact hg
      | false =>
        rw [renderLoop_cons_fail env subs folder hf hr] at h
        simp only [List.mem_cons, List.not_mem_nil, or_false] at h
        obtain ⟨rfl, _, _⟩ := Effect.render.inj h
        rw [hok] at hr
        cases hr

theorem renderLoop_cached_skip (env : Env) (subs : Bool) (folder : String) :
    ∀ (clips : List ClipInfo) (fs : FS) (i0 k : Nat) (ci : ClipInfo),
      clips[k]? = some ci →
      fsGet fs (clipFilename folder (i0 + k) ci.title) = some FileContent.clip →
      (∀ a b, Effect.render (i0 + k) a b ∉
        (renderLoop env subs folder fs i0 clips).2.1) ∧
      (∀ l, (renderLoop env subs folder fs i0 clips).2.2 = some l →
        clipFilename folder (i0 + k) ci.title ∈ l) := by
  intro clips
  induction clips with
  | nil => intro fs i0 k ci hk _; simp at hk
  | cons c0 rest ih =>
    intro fs i0 k ci hk hfile
    cases k with
    | zero =>
      rw [List.getElem?_cons_zero] at hk
      injection hk with hk2
      subst hk2
      rw [Nat.add_zero] at hfile ⊢
      have hf : (fsGet fs (clipFilename folder i0 c0.title)).isSome = true := by
        rw [hfile]; rfl
      constructor
      · intro a b hmem
        rw [renderLoop_cons_cached env subs folder hf] at hmem
        dsimp only at hmem
        obtain ⟨_, _, hle, _, _⟩ :=
          renderLoop_render_events env subs folder rest _ _ _ _ _ hmem
        omega
      · intro l hl
        rw [renderLoop_cons_cached env subs folder hf] at hl
        dsimp only at hl
        rcases Option.map_eq_some'.mp hl with ⟨l0, _, rfl⟩
        exact List.mem_cons_self _ _
    | succ k =>
      rw [List.getElem?_cons_succ] at hk
      have harith : i0 + (k + 1) = (i0 + 1) + k := by omega
      rw [harith] at hfile ⊢
      cases hf : (fsGet fs (clipFilename folder i0 c0.title)).isSome with
      | true =>
        constructor
        · intro a b hmem
          rw [renderLoop_cons_cached env subs folder hf] at hmem
          dsimp only at hmem
          exact (ih fs (i0 + 1) k ci hk hfile).1 a b hmem
        · intro l hl
          rw [renderLoop_cons_cached env subs folder hf] at hl
          dsimp only at hl
          rcases Option.map_eq_some'.mp hl with ⟨l0, hl0, rfl⟩
          exact List.mem_cons_of_mem _ ((ih fs (i0 + 1) k ci hk hfile).2 l0 hl0)
      | false =>
        cases hr : env.renderOk i0 with
        | true =>
          have hfile2 : fsGet (fsPut fs (clipFilename folder i0 c0.title) FileContent.clip)
              (clipFilename folder ((i0 + 1) + k) ci.title) = some FileContent.clip := by
            rw [fsGet_fsPut]
            by_cases hpq : clipFilename folder ((i0 + 1) + k) ci.title =
                clipFilename folder i0 c0.title
            · simp [hpq]
            · simp [hpq, hfile]
          constructor
          · intro a b hmem
            rw [renderLoop_cons_render env subs folder hf hr] at hmem
            dsimp only at hmem
            rcases List.mem_cons.mp hmem with hmem | hmem
            · obtain ⟨he, _, _⟩ := Effect.render.inj hmem
              omega
            · exact (ih _ (i0 + 1) k ci hk hfile2).1 a b hmem
          · intro l hl
            rw [renderLoop_cons_render env subs folder hf hr] at hl
            dsimp only at hl
            rcases Option.map_eq_some'.mp hl with ⟨l0, hl0, rfl⟩
            exact List.mem_cons_of_mem _ ((ih _ (i0 + 1) k ci hk hfile2).2 l0 hl0)
        | false =>
          constructor
          · intro a b hmem
            rw [renderLoop_cons_fail env subs folder hf hr] at hmem
            simp only [List.mem_cons, List.not_mem_nil, or_false] at hmem
            obtain ⟨he, _, _⟩ := Effect.render.inj hmem
            omega
          · intro l hl
            rw [renderLoop_cons_fail env subs folder hf hr] at hl
            simp at hl

/-- C9: if rendering any segment throws, the renderer reports the empty list
    for the whole stage (no partial result), and no segment beyond the failing
    one is attempted; a successfully rendered clip file persists on the final
    filesystem even when a later segment fails; and a clip whose target file
    already exists is never re-encoded (no render event) and is included in
    any non-empty result. -/
theorem c9_renderer_abort_policy (env : Env) (fs : FS) (vp : String)
    (m : Metadata) (folder : String) (subs : Bool) (segs : List TransSeg) :
    (∀ i a b,
      Effect.render i a b ∈ (create_video_clips env fs vp m folder subs segs).2.1 →
      env.renderOk i = false →
      (create_video_clips env fs vp m folder subs segs).2.2 = [] ∧
      ∀ j a2 b2, Effect.render j a2 b2 ∈
        (create_video_clips env fs vp m folder subs segs).2.1 → j ≤ i) ∧
    (∀ i a b,
      Effect.render i a b ∈ (create_video_clips env fs vp m folder subs segs).2.1 →
      env.renderOk i = true →
      ∃ ci, m.clips[i]? = some ci ∧
        fsGet (create_video_clips env fs vp m folder subs segs).1
          (clipFilename folder i ci.title) = some FileContent.clip) ∧
    (∀ k ci, m.clips[k]? = some ci →
      fsGet fs (clipFilename folder k ci.title) = some FileContent.clip →
      (∀ a b, Effect.render k a b ∉
        (create_video_clips env fs vp m folder subs segs).2.1) ∧
      ((create_video_clips env fs vp m folder subs segs).2.2 ≠ [] →
        clipFilename folder k ci.title ∈
          (create_video_clips env fs vp m folder subs segs).2.2)) := by
  by_cases hv : (fsGet fs vp).isNone
  · refine ⟨?_, ?_, ?_⟩
    · intro i a b hmem
      unfold create_video_clips at hmem
      rw [if_pos hv] at hmem
      simp at hmem
    · intro i a b hmem
      unfold create_video_clips at hmem
      rw [if_pos hv] at hmem
      simp at hmem
    · intro k ci _ _
      constructor
      · intro a b hmem
        unfold create_video_clips at hmem
        rw [if_pos hv] at hmem
        simp at hmem
      · intro hne
        unfold create_video_clips at hne
        rw [if_pos hv] at hne
        simp at hne
  · have hcv : create_video_clips env fs vp m folder subs segs =
        ((renderLoop env subs folder fs 0 m.clips).1,
         (renderLoop env subs folder fs 0 m.clips).2.1,
         ((renderLoop env subs folder fs 0 m.clips).2.2).getD []) := by
      unfold create_video_clips
      rw [if_neg hv]
      rcases renderLoop env subs folder fs 0 m.clips with ⟨fs1, evs, out⟩
      cases out <;> rfl
    rw [hcv]
    dsimp only
    refine ⟨?_, ?_, ?_⟩
    · intro i a b hmem hfail
      constructor
      · cases hout : (renderLoop env subs folder fs 0 m.clips).2.2 with
        | none => rfl
        | some l =>
          have := renderLoop_ok_events env subs folder m.clips fs 0 l hout i a b hmem
          rw [this] at hfail
          cases hfail
      · intro j a2 b2 hj
        exact renderLoop_fail_bound env subs folder m.clips fs 0 i a b hmem hfail j a2 b2 hj
    · intro i a b hmem hok
      obtain ⟨ci, hg, hfs⟩ :=
        renderLoop_success_persists env subs folder m.clips fs 0 i a b hmem hok
      exact ⟨ci, by simpa using hg, hfs⟩
    · intro k ci hk hfile
      have h := renderLoop_cached_skip env subs folder m.clips fs 0 k ci hk
        (by simpa using hfile)
      constructor
      · intro a b hmem
        exact (h.1 a b) (by simpa using hmem)
      · intro hne
        cases hout : (renderLoop env subs folder fs 0 m.clips).2.2 with
        | none => rw [hout] at hne; simp at hne
        | some l => simpa using h.2 l hout

/-- Witness for C9: two segments, the first already on disk, the second's
    render throws; the whole stage reports the empty list even though the
    first clip was available. -/
theorem c9_witness :
    (create_video_clips
      ⟨fun _ => none, false, false, none, none, 100, fun _ => false, none⟩
      [("v", FileContent.video), ("f/clip_1_A.mp4", FileContent.clip)] "v"
      ⟨"u", "t", [⟨"A", none, 0, 5⟩, ⟨"B", none, 10, 20⟩]⟩ "f" false []).2.2 = [] := by
  have hlist : (create_video_clips
      ⟨fun _ => none, false, false, none, none, 100, fun _ => false, none⟩
      [("v", FileContent.video), ("f/clip_1_A.mp4", FileContent.clip)] "v"
      ⟨"u", "t", [⟨"A", none, 0, 5⟩, ⟨"B", none, 10, 20⟩]⟩ "f" false []).2.1 =
      [Effect.render 1 10 (min (100 : ℚ) (20 + 0))] := rfl
  have hmem : Effect.render 1 10 (min (100 : ℚ) (20 + 0)) ∈ (create_video_clips
      ⟨fun _ => none, false, false, none, none, 100, fun _ => false, none⟩
      [("v", FileContent.video), ("f/clip_1_A.mp4", FileContent.clip)] "v"
      ⟨"u", "t", [⟨"A", none, 0, 5⟩, ⟨"B", none, 10, 20⟩]⟩ "f" false []).2.1 := by
    rw [hlist]
    exact List.mem_singleton_self _
  exact ((c9_renderer_abort_policy
      ⟨fun _ => none, false, false, none, none, 100, fun _ => false, none⟩
      [("v", FileContent.video), ("f/clip_1_A.mp4", FileContent.clip)] "v"
      ⟨"u", "t", [⟨"A", none, 0, 5⟩, ⟨"B", none, 10, 20⟩]⟩ "f" false []).1
      1 10 (min (100 : ℚ) (20 + 0)) hmem rfl).1

/-- The ordered clip filenames starting from a given enumeration index. -/
def clipNamesFrom (folder : String) : Nat → List ClipInfo → List String
  | _, [] => []
  | i, ci :: rest => clipFilename folder i ci.title :: clipNamesFrom folder (i + 1) rest

theorem renderLoop_all_cached (env : Env) (subs : Bool) (folder : String) :
    ∀ (clips : List ClipInfo) (fs : FS) (i0 : Nat),
      (∀ k ci, clips[k]? = some ci →
        fsGet fs (clipFilename folder (i0 + k) ci.title) = some FileContent.clip) →
      renderLoop env subs folder fs i0 clips =
        (fs, [], some (clipNamesFrom folder i0 clips)) := by
  intro clips
  induction clips with
  | nil => intro fs i0 _; rfl
  | cons ci rest ih =>
    intro fs i0 hall
    have hfile := hall 0 ci (by simp)
    rw [Nat.add_zero] at hfile
    have hf : (fsGet fs (clipFilename folder i0 ci.title)).isSome = true := by
      rw [hfile]; rfl
    have hall2 : ∀ k ci2, rest[k]? = some ci2 →
        fsGet fs (clipFilename folder ((i0 + 1) + k) ci2.title) = some FileContent.clip := by
      intro k ci2 hk
      have h2 := hall (k + 1) ci2 (by rw [List.getElem?_cons_succ]; exact hk)
      rwa [show i0 + (k + 1) = (i0 + 1) + k from by omega] at h2
    rw [renderLoop_cons_cached env subs folder hf, ih fs (i0 + 1) hall2]
    rfl

theorem clipNamesFrom_ne_nil (folder : String) (i : Nat) (clips : List ClipInfo)
    (h : clips ≠ []) : clipNamesFrom folder i clips ≠ [] := by
  cases clips with
  | nil => exact absurd rfl h
  | cons ci rest => simp [clipNamesFrom]

theorem download_video_cached (env : Env) (fs : FS) (url vid t d : String)
    (hinfo : env.extractInfo url = some (t, d))
    (hv : fsGet fs (videoPath vid) = some FileContent.video) :
    download_video env fs url (cacheFolder vid) =
      (fs, [Effect.netInfo], some (videoPath vid, t, d)) := by
  unfold download_video
  rw [hinfo]
  dsimp only
  have hc : (fsGet fs (cacheFolder vid ++ "/downloaded_video.mp4")).isSome = true := by
    have hvp : cacheFolder vid ++ "/downloaded_video.mp4" = videoPath vid := rfl
    rw [hvp, hv]; rfl
  rw [if_pos hc]
  rfl

theorem extract_audio_cached (env : Env) (fs : FS) (vp ap : String)
    (ha : fsGet fs ap = some FileContent.audioF) :
    extract_audio env fs vp ap = (fs, [], some ap) := by
  unfold extract_audio
  rw [if_pos (show (fsGet fs ap).isSome = true by rw [ha]; rfl)]

theorem get_transcription_cached (env : Env) (fs : FS) (ap tp : String)
    (segs : List TransSeg) (ht : fsGet fs tp = some (FileContent.transJson segs)) :
    get_transcription_segments env fs ap tp = (fs, [], some segs) := by
  unfold get_transcription_segments
  rw [ht]

theorem get_metadata_cached (env : Env) (fs : FS) (segs : List TransSeg)
    (mp t u p : String) (m : Metadata)
    (hm : fsGet fs mp = some (FileContent.metaJson m)) :
    get_or_create_metadata_from_ai env fs segs mp t u p = (fs, [], some m) := by
  unfold get_or_create_metadata_from_ai
  rw [hm]

theorem create_video_clips_all_cached (env : Env) (fs : FS) (vp : String)
    (m : Metadata) (folder : String) (subs : Bool) (segs : List TransSeg)
    (hv : (fsGet fs vp).isNone = false)
    (hfiles : ∀ k ci, m.clips[k]? = some ci →
      fsGet fs (clipFilename folder k ci.title) = some FileContent.clip) :
    create_video_clips env fs vp m folder subs segs =
      (fs, [], clipNamesFrom folder 0 m.clips) := by
  unfold create_video_clips
  rw [if_neg (by rw [hv]; exact Bool.false_ne_true)]
  rw [renderLoop_all_cached env subs folder m.clips fs 0
    (by intro k ci hk; rw [Nat.zero_add]; exact hfiles k ci hk)]

theorem run_pipeline_cached (env : Env) (fs : FS) (job_id : Nat)
    (url vid t d prompt : String) (m : Metadata) (segs : List TransSeg)
    (hvid : get_video_id url = some vid)
    (hprompt : env.promptDefault = some prompt)
    (hinfo : env.extractInfo url = some (t, d))
    (hv : fsGet fs (videoPath vid) = some FileContent.video)
    (ha : fsGet fs (audioPath vid) = some FileContent.audioF)
    (ht : fsGet fs (transPath vid) = some (FileContent.transJson segs))
    (hsegs : segs ≠ [])
    (hm : fsGet fs (metaPath vid job_id) = some (FileContent.metaJson m))
    (hfiles : ∀ k ci, m.clips[k]? = some ci →
      fsGet fs (clipFilename (jobFolder vid job_id) k ci.title) = some FileContent.clip) :
    run_processing_pipeline env fs job_id url =
      (fs, [Effect.netInfo],
        if clipNamesFrom (jobFolder vid job_id) 0 m.clips = []
        then Except.error "Clip creation process failed."
        else Except.ok (clipNamesFrom (jobFolder vid job_id) 0 m.clips)) := by
  unfold run_processing_pipeline
  rw [hvid]
  dsimp only
  rw [hprompt]
  dsimp only
  rw [download_video_cached env fs url vid t d hinfo hv]
  dsimp only
  rw [extract_audio_cached env fs (videoPath vid) (audioPath vid) ha]
  dsimp only
  rw [get_transcription_cached env fs (audioPath vid) (transPath vid) segs ht]
  dsimp only
  rw [if_neg hsegs]
  rw [get_metadata_cached env fs segs (metaPath vid job_id) t url prompt m hm]
  dsimp only
  rw [create_video_clips_all_cached env fs (videoPath vid) m (jobFolder vid job_id)
    false segs (by rw [hv]; rfl) hfiles]
  dsimp only
  simp only [List.append_nil]
  split <;> rfl

/-- C2: re-running a job whose cache is fully populated (video file, audio
    file, transcription, metadata and every clip file present) succeeds and
    performs no network download, no audio extraction, no transcription and
    no AI call: the only recorded external interaction is the metadata probe
    of yt-dlp, which runs on every invocation.  The filesystem is unchanged
    and the result is the ordered list of cached clip paths. -/
theorem c2_full_cache_no_external_calls (env : Env) (fs : FS) (job_id : Nat)
    (url vid t d prompt : String) (m : Metadata) (segs : List TransSeg)
    (hvid : get_video_id url = some vid)
    (hprompt : env.promptDefault = some prompt)
    (hinfo : env.extractInfo url = some (t, d))
    (hv : fsGet fs (videoPath vid) = some FileContent.video)
    (ha : fsGet fs (audioPath vid) = some FileContent.audioF)
    (ht : fsGet fs (transPath vid) = some (FileContent.transJson segs))
    (hsegs : segs ≠ [])
    (hm : fsGet fs (metaPath vid job_id) = some (FileContent.metaJson m))
    (hclips : m.clips ≠ [])
    (hfiles : ∀ k ci, m.clips[k]? = some ci →
      fsGet fs (clipFilename (jobFolder vid job_id) k ci.title) = some FileContent.clip) :
    run_processing_pipeline env fs job_id url =
      (fs, [Effect.netInfo],
        Except.ok (clipNamesFrom (jobFolder vid job_id) 0 m.clips)) := by
  rw [run_pipeline_cached env fs job_id url vid t d prompt m segs hvid hprompt hinfo
        hv ha ht hsegs hm hfiles,
      if_neg (clipNamesFrom_ne_nil _ _ _ hclips)]

/-- Witness for C2: a concrete fully populated cache; the environment's
    producers would all raise, yet the run succeeds, changes nothing on disk
    and records only the metadata probe. -/
theorem c2_witness :
    run_processing_pipeline
      ⟨fun _ => some ("T", "D"), false, false, none, none, 0, fun _ => false, some "P"⟩
      [(videoPath "abcdefghijk", FileContent.video),
       (audioPath "abcdefghijk", FileContent.audioF),
       (transPath "abcdefghijk", FileContent.transJson [⟨0, 1, "x"⟩]),
       (metaPath "abcdefghijk" 1, FileContent.metaJson ⟨"u", "T", [⟨"A", none, 0, 5⟩]⟩),
       (clipFilename (jobFolder "abcdefghijk" 1) 0 "A", FileContent.clip)]
      1 "v=abcdefghijk" =
    ([(videoPath "abcdefghijk", FileContent.video),
      (audioPath "abcdefghijk", FileContent.audioF),
      (transPath "abcdefghijk", FileContent.transJson [⟨0, 1, "x"⟩]),
      (metaPath "abcdefghijk" 1, FileContent.metaJson ⟨"u", "T", [⟨"A", none, 0, 5⟩]⟩),
      (clipFilename (jobFolder "abcdefghijk" 1) 0 "A", FileContent.clip)],
     [Effect.netInfo],
     Except.ok [clipFilename (jobFolder "abcdefghijk" 1) 0 "A"]) := by
  refine c2_full_cache_no_external_calls _ _ 1 "v=abcdefghijk" "abcdefghijk"
    "T" "D" "P" ⟨"u", "T", [⟨"A", none, 0, 5⟩]⟩ [⟨0, 1, "x"⟩]
    rfl rfl rfl rfl rfl rfl (by simp) rfl (by simp) ?_
  intro k ci hk
  cases k with
  | zero =>
    rw [List.getElem?_cons_zero] at hk
    injection hk with hk2
    subst hk2
    rfl
  | succ k => simp at hk

/-- C10: when the cached metadata carries an empty clips list, the renderer
    returns the empty list, the pipeline raises the clip-creation failure,
    and the job is persisted FAILED (never COMPLETED with an empty artifact
    list): there is no successful zero-clip outcome. -/
theorem c10_empty_clips_is_failure (env : Env) (fs : FS) (job_id : Nat)
    (url vid t d prompt : String) (m : Metadata) (segs : List TransSeg)
    (hvid : get_video_id url = some vid)
    (hprompt : env.promptDefault = some prompt)
    (hinfo : env.extractInfo url = some (t, d))
    (hv : fsGet fs (videoPath vid) = some FileContent.video)
    (ha : fsGet fs (audioPath vid) = some FileContent.audioF)
    (ht : fsGet fs (transPath vid) = some (FileContent.transJson segs))
    (hsegs : segs ≠ [])
    (hm : fsGet fs (metaPath vid job_id) = some (FileContent.metaJson m))
    (hclips : m.clips = []) :
    (create_video_clips env fs (videoPath vid) m (jobFolder vid job_id) false
      segs).2.2 = [] ∧
    (run_processing_pipeline env fs job_id url).2.2 =
      Except.error "Clip creation process failed." ∧
    (process_video_task env fs job_id url).2.2 =
      [JobWrite.processing,
       JobWrite.failed ("An error occurred: " ++ "Clip creation process failed.")] := by
  have hfiles : ∀ k ci, m.clips[k]? = some ci →
      fsGet fs (clipFilename (jobFolder vid job_id) k ci.title) = some FileContent.clip := by
    intro k ci hk
    rw [hclips] at hk
    simp at hk
  have hnames : clipNamesFrom (jobFolder vid job_id) 0 m.clips = [] := by
    rw [hclips]; rfl
  have hpipe := run_pipeline_cached env fs job_id url vid t d prompt m segs hvid
    hprompt hinfo hv ha ht hsegs hm hfiles
  rw [hnames, if_pos rfl] at hpipe
  refine ⟨?_, ?_, ?_⟩
  · rw [create_video_clips_all_cached env fs (videoPath vid) m (jobFolder vid job_id)
      false segs (by rw [hv]; rfl) hfiles]
    exact hnames
  · rw [hpipe]
  · unfold process_video_task
    rw [hpipe]

/-- Witness for C10: a populated cache whose metadata has zero clips makes
    the job FAILED. -/
theorem c10_witness :
    (process_video_task
      ⟨fun _ => some ("T", "D"), false, false, none, none, 0, fun _ => false, some "P"⟩
      [(videoPath "abcdefghijk", FileContent.video),
       (audioPath "abcdefghijk", FileContent.audioF),
       (transPath "abcdefghijk", FileContent.transJson [⟨0, 1, "x"⟩]),
       (metaPath "abcdefghijk" 1, FileContent.metaJson ⟨"u", "T", []⟩)]
      1 "v=abcdefghijk").2.2 =
    [JobWrite.processing,
     JobWrite.failed ("An error occurred: " ++ "Clip creation process failed.")] :=
  (c10_empty_clips_is_failure
    ⟨fun _ => some ("T", "D"), false, false, none, none, 0, fun _ => false, some "P"⟩
    [(videoPath "abcdefghijk", FileContent.video),
     (audioPath "abcdefghijk", FileContent.audioF),
     (transPath "abcdefghijk", FileContent.transJson [⟨0, 1, "x"⟩]),
     (metaPath "abcdefghijk" 1, FileContent.metaJson ⟨"u", "T", []⟩)]
    1 "v=abcdefghijk" "abcdefghijk" "T" "D" "P"
    ⟨"u", "T", []⟩ [⟨0, 1, "x"⟩] rfl rfl rfl rfl rfl rfl (by simp) rfl rfl).2.2

theorem addStartMatches_extends :
    ∀ (ms : List (Chars × Chars)) (init r : List Entry),
      addStartMatches ms init = Except.ok r → ∃ suf, r = init ++ suf := by
  intro ms
  induction ms with
  | nil =>
    intro init r h
    unfold addStartMatches at h
    simp only [List.foldlM_nil] at h
    injection h with h2
    exact ⟨[], by simp [h2]⟩
  | cons m ms ih =>
    intro init r h
    rw [addStartMatches, List.foldlM_cons] at h
    by_cases hdup : (init.any (fun t => strContains m.2 t.title)) = true
    · rw [if_pos hdup] at h
      simp only [bind, Except.bind] at h
      exact ih init r (by rw [addStartMatches]; exact h)
    · rw [if_neg hdup] at h
      cases hts : timestamp_to_seconds m.1 with
      | none =>
        rw [hts] at h
        simp only [bind, Except.bind] at h
        cases h
      | some s =>
        rw [hts] at h
        simp only [bind, Except.bind] at h
        obtain ⟨suf, hsuf⟩ := ih (init ++ [⟨s, stripChars m.2⟩]) r
          (by rw [addStartMatches]; exact h)
        exact ⟨⟨s, stripChars m.2⟩ :: suf, by simp [hsuf]⟩

/-- C4: whenever the parser returns a tracklist, the entries are sorted
    ascending by start offset, there are at least two of them, and the list
    is a permutation of the accumulated tracklist in which every
    first-grammar entry is kept (the accumulated list extends the
    first-grammar entries; second-grammar matches whose title contains an
    already-captured title were dropped by the accumulation). -/
theorem c4_parser_sorted_dedup (d : String) (l : List Entry)
    (h : parse_timestamps_from_description d = Except.ok (some l)) :
    List.Sorted entryLe l ∧ 2 ≤ l.length ∧
    ∃ tl tl1 suf, buildTracklist d.data = Except.ok tl ∧ l.Perm tl ∧
      entriesEnd d.data = Except.ok tl1 ∧ tl = tl1 ++ suf := by
  unfold parse_timestamps_from_description at h
  cases hb : buildTracklist d.data with
  | error e => rw [hb] at h; simp at h
  | ok tl =>
    rw [hb] at h
    dsimp only at h
    by_cases hnil : tl = []
    · rw [if_pos hnil] at h
      simp at h
    · rw [if_neg hnil] at h
      by_cases h2 : 2 ≤ (List.insertionSort entryLe tl).length
      · rw [if_pos h2] at h
        injection h with h3
        injection h3 with h4
        subst h4
        refine ⟨List.sorted_insertionSort entryLe tl, h2, tl, ?_⟩
        have hb2 := hb
        unfold buildTracklist at hb2
        cases he : entriesEnd d.data with
        | error e => rw [he] at hb2; cases hb2
        | ok tl1 =>
          rw [he] at hb2
          obtain ⟨suf, hsuf⟩ := addStartMatches_extends (matchesStart d.data) tl1 tl hb2
          exact ⟨tl1, suf, rfl, List.perm_insertionSort entryLe tl, rfl, hsuf⟩
      · rw [if_neg h2] at h
        simp at h

/-- Witness for C4: a two-line description handled by the trailing-timestamp
    grammar. -/
theorem c4_witness :
    List.Sorted entryLe [⟨45, ['A']⟩, ⟨50, ['B']⟩] ∧
    2 ≤ ([⟨45, ['A']⟩, ⟨50, ['B']⟩] : List Entry).length ∧
    ∃ tl tl1 suf, buildTracklist "A - 0:45\nB - 0:50".data = Except.ok tl ∧
      ([⟨45, ['A']⟩, ⟨50, ['B']⟩] : List Entry).Perm tl ∧
      entriesEnd "A - 0:45\nB - 0:50".data = Except.ok tl1 ∧ tl = tl1 ++ suf :=
  c4_parser_sorted_dedup "A - 0:45\nB - 0:50" [⟨45, ['A']⟩, ⟨50, ['B']⟩] rfl

theorem digit_not_space {c : Char} (h : c.isDigit = true) : isPySpace c = false := by
  by_contra hc
  rw [Bool.not_eq_false] at hc
  unfold isPySpace at hc
  simp only [Bool.or_eq_true, decide_eq_true_eq] at hc
  rcases hc with ((((h1 | h1) | h1) | h1) | h1) | h1 <;> subst h1 <;>
    exact absurd h (by decide)

theorem digit_ne_dash {c : Char} (h : c.isDigit = true) : c ≠ '-' := by
  rintro rfl; exact absurd h (by decide)

theorem digit_ne_plus {c : Char} (h : c.isDigit = true) : c ≠ '+' := by
  rintro rfl; exact absurd h (by decide)

theorem no_colon_of_digits {l : Chars} (h : l.all Char.isDigit = true) : ':' ∉ l := by
  intro hm
  rw [List.all_eq_true] at h
  exact absurd (h _ hm) (by decide)

theorem dropWhile_space_digits {l : Chars} (h : l.all Char.isDigit = true) :
    l.dropWhile isPySpace = l := by
  cases l with
  | nil => rfl
  | cons c r =>
    rw [List.all_cons, Bool.and_eq_true] at h
    rw [List.dropWhile_cons, digit_not_space h.1]
    simp

theorem stripChars_digits {l : Chars} (h : l.all Char.isDigit = true) :
    stripChars l = l := by
  unfold stripChars
  rw [dropWhile_space_digits h]
  rw [dropWhile_space_digits (by rwa [List.all_reverse])]
  exact List.reverse_reverse l

theorem pyInt_digits {l : Chars} (hne : l ≠ []) (h : l.all Char.isDigit = true) :
    pyInt l = some ((digitsVal l : Int)) := by
  unfold pyInt
  rw [stripChars_digits h]
  cases l with
  | nil => exact absurd rfl hne
  | cons c r =>
    have hall := h
    rw [List.all_cons, Bool.and_eq_true] at h
    dsimp only
    rw [if_neg (digit_ne_dash h.1), if_neg (digit_ne_plus h.1), if_pos hall]

theorem splitColon_no_colon {l : Chars} (h : ':' ∉ l) : splitColon l = [l] := by
  induction l with
  | nil => rfl
  | cons c r ih =>
    simp only [List.mem_cons, not_or] at h
    rw [splitColon, if_neg (fun hc => h.1 hc.symm), ih h.2]

theorem splitColon_append {xs ys : Chars} (h : ':' ∉ xs) :
    splitColon (xs ++ ':' :: ys) = xs :: splitColon ys := by
  induction xs with
  | nil => rw [List.nil_append, splitColon, if_pos rfl]
  | cons c r ih =>
    simp only [List.mem_cons, not_or] at h
    rw [List.cons_append, splitColon, if_neg (fun hc => h.1 hc.symm), ih h.2]

/-- A well-formed timestamp field: a nonempty digit string. -/
def GoodField (l : Chars) : Prop := l ≠ [] ∧ l.all Char.isDigit = true

theorem ts_two_fields {d e : Chars} (hd : GoodField d) (he : GoodField e) :
    ∃ n, timestamp_to_seconds (d ++ ':' :: e) = some n := by
  unfold timestamp_to_seconds
  rw [splitColon_append (no_colon_of_digits hd.2),
      splitColon_no_colon (no_colon_of_digits he.2),
      List.mapM_cons, List.mapM_cons, List.mapM_nil,
      pyInt_digits hd.1 hd.2, pyInt_digits he.1 he.2]
  exact ⟨_, rfl⟩

theorem ts_three_fields {g d e : Chars} (hg : GoodField g) (hd : GoodField d)
    (he : GoodField e) :
    ∃ n, timestamp_to_seconds (g ++ ':' :: (d ++ ':' :: e)) = some n := by
  unfold timestamp_to_seconds
  rw [splitColon_append (no_colon_of_digits hg.2),
      splitColon_append (no_colon_of_digits hd.2),
      splitColon_no_colon (no_colon_of_digits he.2),
      List.mapM_cons, List.mapM_cons, List.mapM_cons, List.mapM_nil,
      pyInt_digits hg.1 hg.2, pyInt_digits hd.1 hd.2, pyInt_digits he.1 he.2]
  exact ⟨_, rfl⟩

theorem dd1_good {s d r : Chars} (h : dd1 s = some (d, r)) : GoodField d := by
  unfold dd1 at h
  cases s with
  | nil => cases h
  | cons a r2 =>
    dsimp only at h
    by_cases ha : a.isDigit = true
    · rw [if_pos ha] at h
      injection h with h2
      injection h2 with h3 h4
      subst h3
      exact ⟨by simp, by simp [ha]⟩
    · rw [if_neg ha] at h
      cases h

theorem dd2_good {s d r : Chars} (h : dd2 s = some (d, r)) : GoodField d := by
  unfold dd2 at h
  cases s with
  | nil => cases h
  | cons a r2 =>
    cases r2 with
    | nil => cases h
    | cons b r3 =>
      dsimp only at h
      by_cases hab : (a.isDigit && b.isDigit) = true
      · rw [if_pos hab] at h
        injection h with h2
        injection h2 with h3 h4
        subst h3
        rw [Bool.and_eq_true] at hab
        exact ⟨by simp, by simp [hab.1, hab.2]⟩
      · rw [if_neg hab] at h
        cases h

theorem tryCore_shape {p : Option (Chars × Chars)} {ts r : Chars}
    (h : tryCore p = some (ts, r))
    (hgood : ∀ d rr, p = some (d, rr) → GoodField d) :
    ∃ d a b, ts = d ++ ':' :: [a, b] ∧ GoodField d ∧
      a.isDigit = true ∧ b.isDigit = true := by
  unfold tryCore at h
  cases p with
  | none => cases h
  | some q =>
    obtain ⟨d, rr⟩ := q
    cases rr with
    | nil => cases h
    | cons c0 rr2 =>
      cases rr2 with
      | nil => cases h
      | cons a rr3 =>
        cases rr3 with
        | nil => cases h
        | cons b r4 =>
          dsimp only at h
          by_cases hc : (c0 = ':' && a.isDigit && b.isDigit) = true
          · rw [if_pos hc] at h
            injection h with h2
            injection h2 with h3 h4
            simp only [Bool.and_eq_true, decide_eq_true_eq] at hc
            exact ⟨d, a, b, h3.symm, hgood d (c0 :: a :: b :: r4) rfl, hc.1.2, hc.2⟩
          · rw [if_neg hc] at h
            cases h

theorem coreCandidates_shape {s : Chars} {c : Chars × Chars}
    (h : c ∈ coreCandidates s) :
    ∃ d a b, c.1 = d ++ ':' :: [a, b] ∧ GoodField d ∧
      a.isDigit = true ∧ b.isDigit = true := by
  obtain ⟨ts, r⟩ := c
  unfold coreCandidates at h
  rw [List.mem_append] at h
  rcases h with h | h
  · rw [Option.mem_toList, Option.mem_def] at h
    exact tryCore_shape h (fun d rr hdd => dd2_good hdd)
  · rw [Option.mem_toList, Option.mem_def] at h
    exact tryCore_shape h (fun d rr hdd => dd1_good hdd)

theorem coreCandidates_ts {s : Chars} {c : Chars × Chars}
    (h : c ∈ coreCandidates s) : ∃ n, timestamp_to_seconds c.1 = some n := by
  obtain ⟨d, a, b, hts, hd, ha, hb⟩ := coreCandidates_shape h
  rw [hts]
  exact ts_two_fields hd ⟨by simp, by simp [ha, hb]⟩

theorem withGroup_ts {p : Option (Chars × Chars)} {c : Chars × Chars}
    (hgood : ∀ g rr, p = some (g, rr) → GoodField g)
    (h : c ∈ withGroup p) :
    ∃ n, timestamp_to_seconds c.1 = some n := by
  unfold withGroup at h
  cases p with
  | none => simp at h
  | some q =>
    obtain ⟨g, rr⟩ := q
    cases rr with
    | nil => simp at h
    | cons c0 r =>
      dsimp only at h
      by_cases hc : c0 = ':'
      · rw [if_pos hc] at h
        rw [List.mem_map] at h
        obtain ⟨c2, hc2, rfl⟩ := h
        obtain ⟨d, a, b, hts, hd, ha, hb⟩ := coreCandidates_shape hc2
        dsimp only
        rw [hts]
        exact ts_three_fields (hgood g (c0 :: r) rfl) hd ⟨by simp, by simp [ha, hb]⟩
      · rw [if_neg hc] at h
        simp at h

theorem tsCandidates_ts {s : Chars} {c : Chars × Chars} (h : c ∈ tsCandidates s) :
    ∃ n, timestamp_to_seconds c.1 = some n := by
  unfold tsCandidates at h
  rw [List.mem_append, List.mem_append] at h
  rcases h with (h | h) | h
  · exact withGroup_ts (fun g rr hg => dd2_good hg) h
  · exact withGroup_ts (fun g rr hg => dd1_good hg) h
  · exact coreCandidates_ts h

theorem mem_of_head_eq {l : List α} {a : α} (h : l.head? = some a) : a ∈ l := by
  cases l with
  | nil => cases h
  | cons x xs =>
    injection h with h2
    rw [← h2]
    exact List.mem_cons_self x xs

theorem scanGo_sound (f : Chars → Option (α × Chars)) :
    ∀ (fuel : Nat) (b : Bool) (s : Chars) (a : α), a ∈ scanGo f fuel b s →
      ∃ s2 rest, f s2 = some (a, rest) := by
  intro fuel
  induction fuel with
  | zero => intro b s a h; simp [scanGo] at h
  | succ fuel ih =>
    intro b s a h
    cases s with
    | nil => simp [scanGo] at h
    | cons c r =>
      cases b with
      | true =>
        rw [scanGo, if_pos rfl] at h
        cases hf : f (c :: r) with
        | some p =>
          rw [hf] at h
          rcases List.mem_cons.mp h with h | h
          · subst h
            exact ⟨c :: r, p.2, by rw [hf]⟩
          · exact ih false p.2 a h
        | none =>
          rw [hf] at h
          exact ih _ r a h
      | false =>
        rw [scanGo, if_neg (by simp)] at h
        exact ih _ r a h

theorem endTail_candidates (s : Chars) (ts r : Chars)
    (h : endTail s = some (ts, r)) : ∃ s2, (ts, r) ∈ tsCandidates s2 := by
  unfold endTail at h
  cases hw : skipWs s with
  | nil => rw [hw] at h; cases h
  | cons c0 r2 =>
    rw [hw] at h
    dsimp only at h
    by_cases hc : c0 = '-'
    · rw [if_pos hc] at h
      exact ⟨skipWs r2, (List.mem_filter.mp (mem_of_head_eq h)).1⟩
    · rw [if_neg hc] at h
      cases h

theorem matchEndGo_endTail :
    ∀ (s acc t ts r : Chars), matchEndGo acc s = some (t, ts, r) →
      ∃ s2, endTail s2 = some (ts, r) := by
  intro s
  induction s with
  | nil =>
    intro acc t ts r h
    rw [matchEndGo] at h
    cases he : endTail [] with
    | some p =>
      obtain ⟨ts0, r0⟩ := p
      rw [he] at h
      injection h with h2
      injection h2 with h3 h4
      injection h4 with h5 h6
      exact ⟨[], by rw [he, h5, h6]⟩
    | none =>
      rw [he] at h
      simp at h
  | cons c s ih =>
    intro acc t ts r h
    rw [matchEndGo] at h
    cases he : endTail (c :: s) with
    | some p =>
      obtain ⟨ts0, r0⟩ := p
      rw [he] at h
      injection h with h2
      injection h2 with h3 h4
      injection h4 with h5 h6
      exact ⟨c :: s, by rw [he, h5, h6]⟩
    | none =>
      rw [he] at h
      dsimp only at h
      by_cases hc : c = '\n'
      · rw [if_pos hc] at h; cases h
      · rw [if_neg hc] at h
        exact ih (c :: acc) t ts r h

theorem matchEndAt_ts {s : Chars} {m : Chars × Chars} {rest : Chars}
    (h : matchEndAt s = some (m, rest)) :
    ∃ n, timestamp_to_seconds m.2 = some n := by
  unfold matchEndAt at h
  rcases Option.map_eq_some'.mp h with ⟨x, hx, heq⟩
  obtain ⟨t0, ts0, r0⟩ := x
  injection heq with h2 h3
  obtain ⟨s2, he⟩ := matchEndGo_endTail s [] t0 ts0 r0 hx
  obtain ⟨s3, hc⟩ := endTail_candidates s2 ts0 r0 he
  obtain ⟨n, hn⟩ := tsCandidates_ts hc
  subst h2
  exact ⟨n, hn⟩

theorem matchStartAt_ts {s : Chars} {m : Chars × Chars} {rest : Chars}
    (h : matchStartAt s = some (m, rest)) :
    ∃ n, timestamp_to_seconds m.1 = some n := by
  unfold matchStartAt at h
  cases hh : (tsCandidates s).head? with
  | none => rw [hh] at h; cases h
  | some q =>
    obtain ⟨ts0, r0⟩ := q
    rw [hh] at h
    dsimp only at h
    injection h with h2
    injection h2 with h3 h4
    obtain ⟨n, hn⟩ := tsCandidates_ts (mem_of_head_eq hh)
    subst h3
    exact ⟨n, hn⟩

theorem entriesEnd_total :
    ∀ (ms : List (Chars × Chars)),
      (∀ m ∈ ms, ∃ n, timestamp_to_seconds m.2 = some n) →
      ∃ l, (ms.mapM (fun m =>
        match timestamp_to_seconds m.2 with
        | some s => Except.ok (⟨s, cleanTitle m.1⟩ : Entry)
        | none => Except.error ())) = Except.ok l := by
  intro ms
  induction ms with
  | nil => exact fun _ => ⟨[], rfl⟩
  | cons m ms ih =>
    intro h
    obtain ⟨n, hn⟩ := h m (List.mem_cons_self m ms)
    obtain ⟨l, hl⟩ := ih (fun m2 hm2 => h m2 (List.mem_cons_of_mem m hm2))
    refine ⟨⟨n, cleanTitle m.1⟩ :: l, ?_⟩
    rw [List.mapM_cons]
    rw [hn, hl]
    rfl

theorem entriesEnd_ok (d : Chars)
    (h : ∀ m ∈ matchesEnd d, ∃ n, timestamp_to_seconds m.2 = some n) :
    ∃ l, entriesEnd d = Except.ok l := by
  obtain ⟨l, hl⟩ := entriesEnd_total (matchesEnd d) h
  exact ⟨l, by rw [entriesEnd]; exact hl⟩

theorem addStart_total :
    ∀ (ms : List (Chars × Chars)),
      (∀ m ∈ ms, ∃ n, timestamp_to_seconds m.1 = some n) →
      ∀ (init : List Entry), ∃ r, addStartMatches ms init = Except.ok r := by
  intro ms
  induction ms with
  | nil => intro _ init; exact ⟨init, by rw [addStartMatches, List.foldlM_nil]; rfl⟩
  | cons m ms ih =>
    intro h init
    by_cases hdup : (init.any (fun t => strContains m.2 t.title)) = true
    · obtain ⟨r, hr⟩ := ih (fun m2 hm2 => h m2 (List.mem_cons_of_mem m hm2)) init
      refine ⟨r, ?_⟩
      rw [addStartMatches, List.foldlM_cons]
      rw [if_pos hdup]
      exact hr
    · obtain ⟨n, hn⟩ := h m (List.mem_cons_self m ms)
      obtain ⟨r, hr⟩ :=
        ih (fun m2 hm2 => h m2 (List.mem_cons_of_mem m hm2)) (init ++ [⟨n, stripChars m.2⟩])
      refine ⟨r, ?_⟩
      rw [addStartMatches, List.foldlM_cons]
      rw [if_neg hdup, hn]
      exact hr

/-- C5 amended: a malformed timestamp never causes a hard parse error.
    Parsing always returns a result; a line whose timestamp string does not
    match either grammar is silently skipped (still contributing nothing),
    and its prefix may even be consumed by the leading-timestamp grammar as a
    shorter valid timestamp. -/
theorem c5_no_hard_parse_error (d : String) :
    ∃ r, parse_timestamps_from_description d = Except.ok r := by
  have hend : ∀ m ∈ matchesEnd d.data, ∃ n, timestamp_to_seconds m.2 = some n := by
    intro m hm
    unfold matchesEnd scanLines at hm
    obtain ⟨s2, rest, hf⟩ := scanGo_sound matchEndAt _ _ _ _ hm
    exact matchEndAt_ts hf
  have hstart : ∀ m ∈ matchesStart d.data, ∃ n, timestamp_to_seconds m.1 = some n := by
    intro m hm
    unfold matchesStart scanLines at hm
    obtain ⟨s2, rest, hf⟩ := scanGo_sound matchStartAt _ _ _ _ hm
    exact matchStartAt_ts hf
  obtain ⟨tl1, h1⟩ := entriesEnd_ok d.data hend
  obtain ⟨tl, h2⟩ := addStart_total (matchesStart d.data) hstart tl1
  have hbt : buildTracklist d.data = Except.ok tl := by
    unfold buildTracklist
    rw [h1]
    exact h2
  by_cases hnil : tl = []
  · exact ⟨none, by
      unfold parse_timestamps_from_description
      rw [hbt]; dsimp only; rw [if_pos hnil]⟩
  · by_cases h22 : 2 ≤ (List.insertionSort entryLe tl).length
    · exact ⟨some (List.insertionSort entryLe tl), by
        unfold parse_timestamps_from_description
        rw [hbt]; dsimp only; rw [if_neg hnil, if_pos h22]⟩
    · exact ⟨none, by
        unfold parse_timestamps_from_description
        rw [hbt]; dsimp only; rw [if_neg hnil, if_neg h22]⟩

/-- C5 counterexample: a line with the malformed timestamp 1:234 is silently
    skipped: parsing succeeds with the entries of the other two lines and no
    entry for the malformed one, instead of being a hard parse error. -/
theorem c5_counterexample :
    parse_timestamps_from_description "A - 1:234\nB - 0:45\nC - 0:50" =
      Except.ok (some [⟨45, ['B']⟩, ⟨50, ['C']⟩]) ∧
    (∀ e ∈ ([⟨45, ['B']⟩, ⟨50, ['C']⟩] : List Entry), e.title ≠ ['A']) :=
  ⟨rfl, by decide⟩

/-- r is a suffix of s. -/
def tailOf (r s : Chars) : Prop := ∃ pre, s = pre ++ r

theorem tailOf_refl (s : Chars) : tailOf s s := ⟨[], rfl⟩

theorem tailOf_cons {r s : Chars} {c : Char} (h : tailOf (c :: r) s) : tailOf r s := by
  obtain ⟨pre, hp⟩ := h
  exact ⟨pre ++ [c], by simp [hp]⟩

theorem tailOf_trans {a b c : Chars} (h1 : tailOf a b) (h2 : tailOf b c) :
    tailOf a c := by
  obtain ⟨p1, hp1⟩ := h1
  obtain ⟨p2, hp2⟩ := h2
  exact ⟨p2 ++ p1, by simp [hp2, hp1]⟩

theorem tailOf_dropWhile (p : Char → Bool) (s : Chars) : tailOf (s.dropWhile p) s :=
  ⟨s.takeWhile p, (List.takeWhile_append_dropWhile (p := p) (l := s)).symm⟩

theorem mem_of_tailOf {c : Char} {r s : Chars} (hm : c ∈ r) (h : tailOf r s) :
    c ∈ s := by
  obtain ⟨pre, hp⟩ := h
  rw [hp]
  exact List.mem_append_right pre hm

theorem dd1_tail {s d r : Chars} (h : dd1 s = some (d, r)) : tailOf r s := by
  unfold dd1 at h
  cases s with
  | nil => cases h
  | cons a r2 =>
    dsimp only at h
    by_cases ha : a.isDigit = true
    · rw [if_pos ha] at h
      injection h with h2
      injection h2 with h3 h4
      subst h4
      exact tailOf_cons (tailOf_refl _)
    · rw [if_neg ha] at h
      cases h

theorem dd2_tail {s d r : Chars} (h : dd2 s = some (d, r)) : tailOf r s := by
  unfold dd2 at h
  cases s with
  | nil => cases h
  | cons a r2 =>
    cases r2 with
    | nil => cases h
    | cons b r3 =>
      dsimp only at h
      by_cases hab : (a.isDigit && b.isDigit) = true
      · rw [if_pos hab] at h
        injection h with h2
        injection h2 with h3 h4
        subst h4
        exact tailOf_cons (tailOf_cons (tailOf_refl _))
      · rw [if_neg hab] at h
        cases h

theorem tryCore_tail {p : Option (Chars × Chars)} {s ts r : Chars}
    (h : tryCore p = some (ts, r))
    (hp : ∀ d rr, p = some (d, rr) → tailOf rr s) : tailOf r s := by
  unfold tryCore at h
  cases p with
  | none => cases h
  | some q =>
    obtain ⟨d, rr⟩ := q
    cases rr with
    | nil => cases h
    | cons c0 rr2 =>
      cases rr2 with
      | nil => cases h
      | cons a rr3 =>
        cases rr3 with
        | nil => cases h
        | cons b r4 =>
          dsimp only at h
          by_cases hc : (c0 = ':' && a.isDigit && b.isDigit) = true
          · rw [if_pos hc] at h
            injection h with h2
            injection h2 with h3 h4
            subst h4
            exact tailOf_cons (tailOf_cons (tailOf_cons (hp d _ rfl)))
          · rw [if_neg hc] at h
            cases h

theorem coreCandidates_tail {s : Chars} {c : Chars × Chars}
    (h : c ∈ coreCandidates s) : tailOf c.2 s := by
  obtain ⟨ts, r⟩ := c
  unfold coreCandidates at h
  rw [List.mem_append] at h
  rcases h with h | h <;> rw [Option.mem_toList, Option.mem_def] at h
  · exact tryCore_tail h (fun d rr hdd => dd2_tail hdd)
  · exact tryCore_tail h (fun d rr hdd => dd1_tail hdd)

theorem withGroup_tail {p : Option (Chars × Chars)} {s : Chars} {c : Chars × Chars}
    (hp : ∀ g rr, p = some (g, rr) → tailOf rr s)
    (h : c ∈ withGroup p) : tailOf c.2 s := by
  unfold withGroup at h
  cases p with
  | none => simp at h
  | some q =>
    obtain ⟨g, rr⟩ := q
    cases rr with
    | nil => simp at h
    | cons c0 r =>
      dsimp only at h
      by_cases hc : c0 = ':'
      · rw [if_pos hc, List.mem_map] at h
        obtain ⟨c2, hc2, rfl⟩ := h
        show tailOf c2.2 s
        exact tailOf_trans (coreCandidates_tail hc2) (tailOf_cons (hp g (c0 :: r) rfl))
      · rw [if_neg hc] at h
        simp at h

theorem tsCandidates_tail {s : Chars} {c : Chars × Chars}
    (h : c ∈ tsCandidates s) : tailOf c.2 s := by
  unfold tsCandidates at h
  rw [List.mem_append, List.mem_append] at h
  rcases h with (h | h) | h
  · exact withGroup_tail (fun g rr hg => dd2_tail hg) h
  · exact withGroup_tail (fun g rr hg => dd1_tail hg) h
  · exact coreCandidates_tail h

theorem endTail_tail {s ts r : Chars} (h : endTail s = some (ts, r)) : tailOf r s := by
  unfold endTail at h
  cases hw : skipWs s with
  | nil => rw [hw] at h; cases h
  | cons c0 r2 =>
    rw [hw] at h
    dsimp only at h
    by_cases hc : c0 = '-'
    · rw [if_pos hc] at h
      have hmem := (List.mem_filter.mp (mem_of_head_eq h)).1
      have h1 : tailOf r (skipWs r2) := tsCandidates_tail hmem
      have h2 : tailOf (skipWs r2) r2 := tailOf_dropWhile _ _
      have h4 : tailOf (c0 :: r2) s := by
        rw [← hw]
        exact tailOf_dropWhile isPySpace s
      exact tailOf_trans h1 (tailOf_trans h2 (tailOf_cons h4))
    · rw [if_neg hc] at h
      cases h

theorem matchEndGo_tail :
    ∀ (s acc t ts r : Chars), matchEndGo acc s = some (t, ts, r) → tailOf r s := by
  intro s
  induction s with
  | nil =>
    intro acc t ts r h
    rw [matchEndGo] at h
    cases he : endTail ([] : Chars) with
    | some p =>
      obtain ⟨ts0, r0⟩ := p
      rw [he] at h
      injection h with h2
      injection h2 with h3 h4
      injection h4 with h5 h6
      subst h6
      exact endTail_tail he
    | none =>
      rw [he] at h
      simp at h
  | cons c s ih =>
    intro acc t ts r h
    rw [matchEndGo] at h
    cases he : endTail (c :: s) with
    | some p =>
      obtain ⟨ts0, r0⟩ := p
      rw [he] at h
      injection h with h2
      injection h2 with h3 h4
      injection h4 with h5 h6
      subst h6
      exact endTail_tail he
    | none =>
      rw [he] at h
      dsimp only at h
      by_cases hc : c = '\n'
      · rw [if_pos hc] at h
        cases h
      · rw [if_neg hc] at h
        exact tailOf_trans (ih (c :: acc) t ts r h) (tailOf_cons (tailOf_refl _))

theorem matchEndAt_tail {s : Chars} {m : Chars × Chars} {rest : Chars}
    (h : matchEndAt s = some (m, rest)) : tailOf rest s := by
  unfold matchEndAt at h
  rcases Option.map_eq_some'.mp h with ⟨x, hx, heq⟩
  obtain ⟨t0, ts0, r0⟩ := x
  injection heq with h2 h3
  subst h3
  exact matchEndGo_tail s [] t0 ts0 r0 hx

theorem matchStartAt_tail {s : Chars} {m : Chars × Chars} {rest : Chars}
    (h : matchStartAt s = some (m, rest)) : tailOf rest s := by
  unfold matchStartAt at h
  cases hh : (tsCandidates s).head? with
  | none => rw [hh] at h; cases h
  | some q =>
    obtain ⟨ts0, r0⟩ := q
    rw [hh] at h
    dsimp only at h
    injection h with h2
    injection h2 with h3 h4
    subst h4
    have h0 : tailOf r0 s := tsCandidates_tail (mem_of_head_eq hh)
    have h1 : tailOf (skipWs r0) s := tailOf_trans (tailOf_dropWhile _ _) h0
    cases hr2 : skipWs r0 with
    | nil => exact ⟨s, by simp⟩
    | cons c0 rr =>
      rw [hr2] at h1
      dsimp only
      by_cases hc : c0 = '-'
      · rw [if_pos hc]
        exact tailOf_trans (tailOf_dropWhile _ _)
          (tailOf_trans (tailOf_dropWhile _ _) (tailOf_cons h1))
      · rw [if_neg hc]
        exact tailOf_trans (tailOf_dropWhile _ _) h1

theorem scanGo_false_nil (f : Chars → Option (α × Chars)) :
    ∀ (fuel : Nat) (s : Chars), ('\n' ∉ s) → scanGo f fuel false s = [] := by
  intro fuel
  induction fuel with
  | zero => intro s _; simp [scanGo]
  | succ fuel ih =>
    intro s hs
    cases s with
    | nil => rw [scanGo]
    | cons c r =>
      simp only [List.mem_cons, not_or] at hs
      rw [scanGo, if_neg (by simp)]
      have hcd : decide (c = '\n') = false :=
        decide_eq_false (fun hcc => hs.1 hcc.symm)
      rw [hcd]
      exact ih r hs.2

theorem scanLines_length_le_one (f : Chars → Option ((Chars × Chars) × Chars))
    (s : Chars) (hnl : '\n' ∉ s)
    (htail : ∀ a r, f s = some (a, r) → tailOf r s) :
    (scanLines f s).length ≤ 1 := by
  unfold scanLines
  cases s with
  | nil => simp [scanGo]
  | cons c r =>
    rw [scanGo, if_pos rfl]
    cases hf : f (c :: r) with
    | some p =>
      dsimp only
      have hrest : '\n' ∉ p.2 := by
        intro hmem
        exact hnl (mem_of_tailOf hmem (htail p.1 p.2 (by rw [hf])))
      rw [scanGo_false_nil f _ _ hrest]
      simp
    | none =>
      dsimp only
      simp only [List.mem_cons, not_or] at hnl
      have hcd : decide (c = '\n') = false :=
        decide_eq_false (fun hcc => hnl.1 hcc.symm)
      rw [hcd, scanGo_false_nil f _ _ hnl.2]
      simp

theorem mapM_entries_length {F : Chars × Chars → Except Unit Entry} :
    ∀ (ms : List (Chars × Chars)) (l : List Entry), ms.mapM F = Except.ok l →
      l.length = ms.length := by
  intro ms
  induction ms with
  | nil =>
    intro l h
    rw [List.mapM_nil] at h
    injection h with h2
    rw [← h2]
    rfl
  | cons m ms ih =>
    intro l h
    rw [List.mapM_cons] at h
    cases hF : F m with
    | error e =>
      rw [hF] at h
      simp [bind, Except.bind] at h
    | ok x =>
      rw [hF] at h
      simp only [bind, Except.bind] at h
      cases hM : ms.mapM F with
      | error e =>
        rw [hM] at h
        simp at h
      | ok xs =>
        rw [hM] at h
        simp only [pure, Except.pure] at h
        injection h with h2
        rw [← h2, List.length_cons, ih xs hM, List.length_cons]

theorem addStartMatches_length :
    ∀ (ms : List (Chars × Chars)) (init r : List Entry),
      addStartMatches ms init = Except.ok r →
      r.length ≤ init.length + ms.length := by
  intro ms
  induction ms with
  | nil =>
    intro init r h
    rw [addStartMatches, List.foldlM_nil] at h
    injection h with h2
    simp [← h2]
  | cons m ms ih =>
    intro init r h
    rw [addStartMatches, List.foldlM_cons] at h
    by_cases hdup : (init.any (fun t => strContains m.2 t.title)) = true
    · rw [if_pos hdup] at h
      simp only [bind, Except.bind] at h
      have hle := ih init r (by rw [addStartMatches]; exact h)
      simp only [List.length_cons]
      omega
    · cases hts : timestamp_to_seconds m.1 with
      | none =>
        rw [if_neg hdup, hts] at h
        simp [bind, Except.bind] at h
      | some n =>
        rw [if_neg hdup, hts] at h
        simp only [bind, Except.bind] at h
        have hle := ih (init ++ [⟨n, stripChars m.2⟩]) r
          (by rw [addStartMatches]; exact h)
        simp only [List.length_append, List.length_singleton] at hle
        simp only [List.length_cons]
        omega

theorem parse_some_shape {d : String} {l : List Entry}
    (h : parse_timestamps_from_description d = Except.ok (some l)) :
    ∃ tl, buildTracklist d.data = Except.ok tl ∧
      l = List.insertionSort entryLe tl ∧ 2 ≤ l.length := by
  unfold parse_timestamps_from_description at h
  cases hb : buildTracklist d.data with
  | error e => rw [hb] at h; simp at h
  | ok tl =>
    rw [hb] at h
    dsimp only at h
    by_cases hnil : tl = []
    · rw [if_pos hnil] at h
      simp at h
    · rw [if_neg hnil] at h
      by_cases h2 : 2 ≤ (List.insertionSort entryLe tl).length
      · rw [if_pos h2] at h
        injection h with h3
        injection h3 with h4
        refine ⟨tl, rfl, h4.symm, ?_⟩
        rw [← h4]
        exact h2
      · rw [if_neg h2] at h
        simp at h

/-- C6 amended: for a description consisting of a single line, each grammar
    contributes at most one entry, so the parser returns a tracklist only in
    the exceptional case in which the line is matched by both grammars and
    the leading-timestamp match survives the containment dedup (for example
    a line whose title is itself a timestamp); it then returns exactly two
    entries.  Otherwise the parser returns none. -/
theorem c6_single_line_needs_both_grammars (d : String) (hnl : '\n' ∉ d.data)
    (l : List Entry)
    (h : parse_timestamps_from_description d = Except.ok (some l)) :
    l.length = 2 ∧ (matchesEnd d.data).length = 1 ∧
      (matchesStart d.data).length = 1 := by
  obtain ⟨tl, hbt, hsort, hlen⟩ := parse_some_shape h
  have hltl : l.length = tl.length := by
    rw [hsort]
    exact (List.perm_insertionSort entryLe tl).length_eq
  have hend1 : (matchesEnd d.data).length ≤ 1 := by
    unfold matchesEnd
    exact scanLines_length_le_one matchEndAt d.data hnl
      (fun a r hf => matchEndAt_tail hf)
  have hstart1 : (matchesStart d.data).length ≤ 1 := by
    unfold matchesStart
    exact scanLines_length_le_one matchStartAt d.data hnl
      (fun a r hf => matchStartAt_tail hf)
  have hb2 := hbt
  unfold buildTracklist at hb2
  cases he : entriesEnd d.data with
  | error e => rw [he] at hb2; cases hb2
  | ok tl1 =>
    rw [he] at hb2
    have h1len : tl1.length = (matchesEnd d.data).length :=
      mapM_entries_length (matchesEnd d.data) tl1 (by rw [entriesEnd] at he; exact he)
    have h2len : tl.length ≤ tl1.length + (matchesStart d.data).length :=
      addStartMatches_length (matchesStart d.data) tl1 tl hb2
    refine ⟨by omega, by omega, by omega⟩

/-- C6 counterexample: the single-line description 0:10 - 0:20 is matched by
    both grammars (the trailing grammar reads title 0:10, timestamp 0:20; the
    leading grammar reads timestamp 0:10, title 0:20; the dedup check does
    not fire), so the parser returns two entries instead of none. -/
theorem c6_counterexample :
    ('\n' ∉ "0:10 - 0:20".data) ∧
    parse_timestamps_from_description "0:10 - 0:20" =
      Except.ok (some [⟨10, "0:20".data⟩, ⟨20, ":10".data⟩]) :=
  ⟨by decide, rfl⟩

/-- Witness for the amended C6 at its counterexample input. -/
theorem c6_witness :
    ([⟨10, "0:20".data⟩, ⟨20, ":10".data⟩] : List Entry).length = 2 ∧
    (matchesEnd "0:10 - 0:20".data).length = 1 ∧
    (matchesStart "0:10 - 0:20".data).length = 1 :=
  c6_single_line_needs_both_grammars "0:10 - 0:20" (by decide)
    [⟨10, "0:20".data⟩, ⟨20, ":10".data⟩] rfl

/-- The timestamp conversion examples of the specification. -/
theorem timestamp_examples :
    timestamp_to_seconds "1:02:03".data = some 3723 ∧
    timestamp_to_seconds "2:05".data = some 125 := ⟨rfl, rfl⟩

/-- A single ordinary tracklist line yields no tracklist. -/
theorem single_plain_line_none :
    parse_timestamps_from_description "Intro - 0:45" = Except.ok none := rfl
